import Mathlib

/-!
Verification of the Codebase-Dumper repository (scripts/dump_codebase.py and
scripts/dump_diff.py) against its natural-language specification.

The Python sources are shallowly embedded below.  Paths are modelled as lists
of path segments (`Path.parts`), file contents as optional byte lists
(`none` models an unreadable file, i.e. a raised `IOError`), Python dicts as
insertion-ordered association lists, and the two external `git` behaviours the
scripts rely on (wildcard-free pathspec exclusion and diff capture) as
explicit functions whose semantics follow the git documentation cited in the
specification's glossary.
-/

namespace DumpCodebase

/-- Byte contents of files: a file system maps a path (list of segments) to
`some bytes` or to `none` when opening/reading the file raises `IOError`. -/
def RawFS : Type := List String → Option (List Nat)

/-- Whitelisted glob patterns, from `include_patterns` in dump_codebase.py.
The Python value is a set literal; only membership is ever used, so a list
is a faithful model. -/
def include_patterns : List String :=
  ["*.py", "*.ts", "*.tsx", "*.js", "*.jsx", "*.rs",
   "*.html", "*.css", "*.json", "*.toml", "*.yml", "*.yaml",
   "*.md", "*.txt", "*.sh", "*.env.example"]

/-- Embeds Python's `str.startswith(pre)`. -/
def pyStartsWith (s pre : String) : Bool :=
  List.isPrefixOf pre.toList s.toList

/-- Embeds `include_extensions = tuple(p[1:] for p in include_patterns if p.startswith("*."))`. -/
def include_extensions : List String :=
  (include_patterns.filter (fun p => pyStartsWith p "*.")).map (fun p => p.drop 1)

/-- Embeds `excluded_names` from dump_codebase.py. -/
def excluded_names : List String := [".env", "secrets.json"]

/-- Embeds `excluded_dirs` from dump_codebase.py. -/
def excluded_dirs : List String :=
  [".git", ".idea", ".vscode", "node_modules",
   ".venv", "venv", "dist", "build", "__pycache__", "target"]

/-- Core of Python's `fnmatch.fnmatch` on posix (where `normcase` is the
identity), restricted to the wildcards `*` and `?` — the configured patterns
contain no `[` classes.  `*` matches any character sequence, `?` any single
character, anything else matches itself. -/
def globMatch : List Char → List Char → Bool
  | [], [] => true
  | '*' :: ps, [] => globMatch ps []
  | '*' :: ps, c :: cs => globMatch ps (c :: cs) || globMatch ('*' :: ps) cs
  | '?' :: ps, _ :: cs => globMatch ps cs
  | p :: ps, c :: cs => (p == c) && globMatch ps cs
  | _ :: _, [] => false
  | [], _ :: _ => false
termination_by ps cs => (cs.length, ps.length)

/-- Embeds `fnmatch.fnmatch(name, pat)`. -/
def fnmatch (name pat : String) : Bool := globMatch pat.toList name.toList

/-- Embeds Python's `str.endswith(suffix)`: character-sequence suffix
test. -/
def pyEndsWith (s suf : String) : Bool := List.isSuffixOf suf.toList s.toList

/-- Filename of a path, i.e. `path.name` = the last of `path.parts`. -/
def pathName (p : List String) : String := p.getLastD ""

/-- Embeds `is_binary` from dump_codebase.py: open the file, read at most the
first 2048 bytes and test `b'\0' in data`; a raised `IOError` (modelled by
`fs p = none`) yields `True`. -/
def is_binary (fs : RawFS) (p : List String) : Bool :=
  match fs p with
  | none => true
  | some bytes => (bytes.take 2048).contains 0

/-- Embeds `is_valid_file` from dump_codebase.py: the filename must end with a
whitelisted extension or match one of the glob patterns, and the file must not
be binary. -/
def is_valid_file (fs : RawFS) (p : List String) : Bool :=
  if !(include_extensions.any (fun ext => pyEndsWith (pathName p) ext)
      || include_patterns.any (fun pat => fnmatch (pathName p) pat)) then
    false
  else if is_binary fs p then
    false
  else
    true

/-- Match of a single wildcard-free git pathspec element `s` (one path
segment, as every entry of `excluded_dirs` and `excluded_names` is) against a
repository-relative path.  Per the git documentation, such a pathspec matches
the path `s` itself and every path below the directory `s/`; on a path given
as a segment list this is exactly: the first segment equals `s`. -/
def pathspecMatches (s : String) (p : List String) : Bool := p.head? == some s

/-- The exclusion pathspecs handed to `git ls-files` by `get_project_files`:
`[f":(exclude){d}" for d in excluded_dirs]` followed by the same for
`excluded_names`. -/
def gitExclusions : List String := excluded_dirs ++ excluded_names

/-- A path survives the `:(exclude)` pathspecs on the `git ls-files` call. -/
def keptByGit (p : List String) : Bool :=
  !(gitExclusions.any (fun s => pathspecMatches s p))

/-- Whether a path counts as nested, i.e. `len(p.parts) > 1`. -/
def isNested (p : List String) : Bool := decide (p.length > 1)

/-- Embeds `str(p)` for a relative posix path built from segments. -/
def pathStr (p : List String) : String := String.intercalate "/" p

/-- Python's comparison of `(bool, str)` key tuples: lexicographic, with
`False < True` on the first component and code-point order on the second. -/
def pairLe (a b : Bool × String) : Bool :=
  (!a.1 && b.1) || (a.1 == b.1 && decide (a.2 ≤ b.2))

/-- The sort order used by `get_project_files`:
`sorted(valid_paths, key=lambda p: (len(p.parts) > 1, str(p)))`,
i.e. lexicographic comparison of the key pairs. -/
def fileOrderLe (p q : List String) : Bool :=
  pairLe (isNested p, pathStr p) (isNested q, pathStr q)

/-- Embeds the filtering and sorting pipeline of `get_project_files`: the
enumerated candidate list (output of `git ls-files -c -o --exclude-standard`
before exclusions) is cut down by the exclusion pathspecs, filtered through
`is_valid_file`, and sorted by `(len(parts) > 1, str(path))`.  Python's
`sorted` is a stable comparison sort; `List.mergeSort` is the same. -/
def get_project_files (fs : RawFS) (enumerated : List (List String)) :
    List (List String) :=
  ((enumerated.filter keptByGit).filter (is_valid_file fs)).mergeSort fileOrderLe

/-- Candidate output names probed by `get_unique_filename`: the canonical
`base.txt` first, then `base (1).txt`, `base (2).txt`, ... -/
def candidateName (base : String) : Nat → String
  | 0 => base ++ ".txt"
  | Nat.succ n => base ++ " (" ++ toString (n + 1) ++ ").txt"

/-- Loop body of `get_unique_filename` (both scripts have the identical
function): while the current candidate exists, move to
`f"{base_name} ({counter}).txt"` and bump the counter.  `existing` models the
set of file names that `output_path.exists()` reports as present; `fuel`
bounds the iteration so the function stays total. -/
def uniqueLoop (existing : List String) (base : String) :
    Nat → String → Nat → String
  | 0, out, _ => out
  | Nat.succ fuel, out, counter =>
    if out ∈ existing then
      uniqueLoop existing base fuel
        (base ++ " (" ++ toString counter ++ ").txt") (counter + 1)
    else
      out

/-- Embeds `get_unique_filename`: start from `f"{base_name}.txt"` with the
counter at 1. -/
def get_unique_filename (existing : List String) (base : String)
    (fuel : Nat) : String :=
  uniqueLoop existing base fuel (base ++ ".txt") 1

/-- Tree nodes, embedding `Tree = dict[str, Union["Tree", None]]` from
dump_codebase.py: a dict value of `None` marks a file, a nested dict a
directory.  A Python dict is insertion-ordered, so it is modelled as an
association list in insertion order. -/
inductive Node where
  | file : Node
  | dir : List (String × Node) → Node

/-- The entry list of one directory level (a Python dict). -/
abbrev Entries := List (String × Node)

/-- Dict lookup `d[k]` / membership `k in d`. -/
def lookupEntry : Entries → String → Option Node
  | [], _ => none
  | (k, v) :: rest, key => if k == key then some v else lookupEntry rest key

/-- Dict assignment `d[k] = None`: replace the value in place when the key is
present, otherwise append a new entry at the end. -/
def setLast : Entries → String → Entries
  | [], key => [(key, Node.file)]
  | (k, v) :: rest, key =>
    if k == key then (key, Node.file) :: rest else (k, v) :: setLast rest key

/-- Dict assignment `d[k] = v` for a present key (in-place mutation through
the reference obtained from `setdefault`); appends when the key is absent,
though `insertParts` only uses it on present keys. -/
def updateEntry : Entries → String → Node → Entries
  | [], key, v => [(key, v)]
  | (k, w) :: rest, key, v =>
    if k == key then (key, v) :: rest else (k, w) :: updateEntry rest key v

/-- One iteration of the insertion loop of `build_tree`: walk
`path.parts[:-1]` with `d = d.setdefault(part, {})`, then `d[parts[-1]] = None`.
`none` models the `TypeError`/`AttributeError` Python raises when the walk
meets an existing file entry (`setdefault` returns `None` and the next
subscript or `setdefault` on it fails), and also the `IndexError` of
`parts[-1]` on an empty path. -/
def insertParts : Entries → List String → Option Entries
  | _, [] => none
  | es, [k] => some (setLast es k)
  | es, part :: rest =>
    match lookupEntry es part with
    | some Node.file => none
    | some (Node.dir sub) =>
      (insertParts sub rest).map (fun sub' => updateEntry es part (Node.dir sub'))
    | none =>
      (insertParts ([] : Entries) rest).map
        (fun sub' => es ++ [(part, Node.dir sub')])

/-- Embeds `build_tree`: fold the insertion loop over the path list starting
from the empty dict; any raised exception aborts the whole run (`none`). -/
def build_tree (paths : List (List String)) : Option Entries :=
  paths.foldlM insertParts []

/-- Discriminates `isinstance(item[1], dict)`. -/
def isDir : Node → Bool
  | Node.file => false
  | Node.dir _ => true

/-- Sort key of `render_tree`'s siblings:
`key=lambda item: (isinstance(item[1], dict), item[0])`. -/
def keyOf (a : String × Node) : Bool × String := (isDir a.2, a.1)

/-- The sibling sort order of `render_tree`: compare the key tuples —
files (`False`) before directories (`True`), names in code-point order
inside each group. -/
def childOrderLe (a b : String × Node) : Bool :=
  pairLe (keyOf a) (keyOf b)

/-- Auxiliary: permutations preserve `sizeOf`, used for termination of the
renderer below (it recurses into a sorted copy of the children). -/
theorem sizeOf_perm_eq {α : Type} [SizeOf α] {l l' : List α}
    (h : l.Perm l') : sizeOf l = sizeOf l' := by
  induction h with
  | nil => rfl
  | cons x _ ih => simp only [List.cons.sizeOf_spec, ih]
  | swap x y l => simp only [List.cons.sizeOf_spec]; omega
  | trans _ _ ih₁ ih₂ => exact ih₁.trans ih₂

/-- Loop body of `render_tree` over the already-sorted sibling list: emit
`prefix + connector + name` (connector `└── ` for the last sibling, `├── `
otherwise) and, for a directory, recurse with the prefix extended by `    `
after the last sibling and by `│   ` otherwise. -/
def renderSorted : List (String × Node) → String → List String
  | [], _ => []
  | (name, Node.file) :: rest, pre =>
    (pre ++ (if rest.isEmpty then "└── " else "├── ") ++ name)
      :: renderSorted rest pre
  | (name, Node.dir es) :: rest, pre =>
    (pre ++ (if rest.isEmpty then "└── " else "├── ") ++ name)
      :: (renderSorted (es.mergeSort childOrderLe)
            (pre ++ (if rest.isEmpty then "    " else "│   "))
          ++ renderSorted rest pre)
termination_by l _ => sizeOf l
decreasing_by
  all_goals try rw [sizeOf_perm_eq (List.mergeSort_perm _ childOrderLe)]
  all_goals simp only [List.cons.sizeOf_spec, Prod.mk.sizeOf_spec,
    Node.dir.sizeOf_spec]
  all_goals omega

/-- Embeds `render_tree`: sort the current dict's items by
`(isinstance(value, dict), name)` — Python's `sorted` is a stable merge
sort — then walk them with the connector logic above. -/
def render_tree (es : Entries) (pre : String) : List String :=
  renderSorted (es.mergeSort childOrderLe) pre

/-! Well-formedness of trees: every directory level has pairwise-distinct
keys (automatic for a Python dict) and well-formed children.  `build_tree`
establishes it; several renderer lemmas consume it. -/

mutual

/-- Well-formedness of a node (see above). -/
def nodeWF : Node → Bool
  | Node.file => true
  | Node.dir es => decide ((es.map Prod.fst).Nodup) && childrenWF es

/-- Well-formedness of every value of an entry list. -/
def childrenWF : Entries → Bool
  | [] => true
  | (_, v) :: rest => nodeWF v && childrenWF rest

end

/-- Well-formedness of a directory level. -/
def entriesWF (es : Entries) : Bool := nodeWF (Node.dir es)

/-- Extensional equivalence of trees: same keys at every level, with
equivalent values.  Two insertion orders of the same path set produce
equivalent (not equal) dicts, because fresh keys are appended at the end. -/
inductive NodeEquiv : Node → Node → Prop where
  | file : NodeEquiv Node.file Node.file
  | dir : ∀ {es es' : Entries},
      (∀ k, lookupEntry es k = none ↔ lookupEntry es' k = none) →
      (∀ k v v', lookupEntry es k = some v → lookupEntry es' k = some v' →
        NodeEquiv v v') →
      NodeEquiv (Node.dir es) (Node.dir es')

/-- Equivalence of directory levels. -/
def EntriesEquiv (es es' : Entries) : Prop :=
  NodeEquiv (Node.dir es) (Node.dir es')

/-! Spec-side definitions.  Each follows the specification's words and is
used only to compare against the embeddings above. -/

/-- Formalizes the spec's filter contract (§4.2): accept iff the filename
matches at least one include pattern, the filename is not an excluded
literal name, no path segment equals an excluded directory name, and the
content is not detected as binary. -/
def specFilterAccepts (fs : RawFS) (p : List String) : Bool :=
  include_patterns.any (fun pat => fnmatch (pathName p) pat)
    && !(excluded_names.contains (pathName p))
    && !(p.any (fun seg => excluded_dirs.contains seg))
    && !(is_binary fs p)

/-- Formalizes the spec's "printable-ASCII-plus-whitespace" byte range. -/
def printableOrWS (b : Nat) : Bool :=
  (32 ≤ b && b ≤ 126) || b == 9 || b == 10 || b == 13

/-- Formalizes the spec's binary heuristic (§4.2): look at the first 2048
bytes; binary iff a null byte is present or the fraction of bytes outside
the printable-ASCII-plus-whitespace range exceeds 30%. -/
def specBinaryHeuristic (bytes : List Nat) : Bool :=
  let h := bytes.take 2048
  h.contains 0
    || decide (h.length * 3 < (h.filter (fun b => !printableOrWS b)).length * 10)

/-- Formalizes the spec's sibling ordering policy for the renderer (§4.4) as
a relation: files sort before directories, lexicographically inside each
group. -/
def specSiblingLe (a b : String × Node) : Prop :=
  (isDir a.2 = false ∧ isDir b.2 = true) ∨ (isDir a.2 = isDir b.2 ∧ a.1 ≤ b.1)

instance : DecidableRel specSiblingLe := by
  unfold specSiblingLe; infer_instance

/-- Spec-side sibling ordering applied as a (stable) sort. -/
def sortSiblings (es : Entries) : Entries :=
  es.mergeSort (fun a b => decide (specSiblingLe a b))

/-- Spec-side connector (§4.4): the last sibling takes `└── `, every other
sibling `├── `. -/
def specConnector (isLast : Bool) : String :=
  if isLast then "└── " else "├── "

/-- Spec-side continuation (§4.4): no continuation bar after the last
sibling, a `│   ` bar after every other sibling; one 4-column indentation
unit per depth level. -/
def specBar (isLast : Bool) : String :=
  if isLast then "    " else "│   "

/-- Spec-side renderer loop: walk the ordered siblings; the pattern match
distinguishes the last sibling from the others. -/
def goSpec : List (String × Node) → String → List String
  | [], _ => []
  | [(name, Node.file)], pre => [pre ++ specConnector true ++ name]
  | [(name, Node.dir es)], pre =>
    (pre ++ specConnector true ++ name)
      :: goSpec (sortSiblings es) (pre ++ specBar true)
  | (name, Node.file) :: rest, pre =>
    (pre ++ specConnector false ++ name) :: goSpec rest pre
  | (name, Node.dir es) :: rest, pre =>
    (pre ++ specConnector false ++ name)
      :: (goSpec (sortSiblings es) (pre ++ specBar false) ++ goSpec rest pre)
termination_by l _ => sizeOf l
decreasing_by
  all_goals try rw [show sortSiblings es = List.mergeSort es
    (fun a b => decide (specSiblingLe a b)) from rfl,
    sizeOf_perm_eq (List.mergeSort_perm _ _)]
  all_goals simp only [List.cons.sizeOf_spec, Prod.mk.sizeOf_spec,
    Node.dir.sizeOf_spec, List.nil.sizeOf_spec]
  all_goals omega

/-- Spec-side renderer (§4.4): sort the siblings by the spec policy, then
emit connectors and continuation bars as described. -/
def renderSpec (es : Entries) (pre : String) : List String :=
  goSpec (sortSiblings es) pre

/-! The content assembler (`write_codebase_to_file`). -/

/-- Text reads for the assembler: `path.read_text(encoding="utf-8",
errors="replace")` either yields the decoded text or raises (`none`). -/
def TextFS : Type := List String → Option String

/-- Python's `str.rstrip()` whitespace set, restricted to the ASCII
whitespace characters. -/
def isStripWS (c : Char) : Bool :=
  c == ' ' || c == '\t' || c == '\n' || c == '\r' || c == '\x0b' || c == '\x0c'

/-- Embeds `content.rstrip()`. -/
def rstrip (s : String) : String :=
  ((s.toList.reverse.dropWhile isStripWS).reverse).asString

/-- One iteration of the assembler's per-file loop: a labelled fenced block
on success, the inline placeholder when the read raises (`errText` supplies
the text of the caught exception, `f"{e}"`). -/
def fileEntry (tfs : TextFS) (errText : List String → String)
    (p : List String) : String :=
  match tfs p with
  | some content =>
    "### " ++ pathStr p ++ "\n" ++ "```\n" ++ rstrip content ++ "\n"
      ++ "```\n\n"
  | none =>
    "<Could not read file " ++ pathStr p ++ ": " ++ errText p ++ ">\n\n"

/-- The concatenated per-file sections, in input order. -/
def fileSections (tfs : TextFS) (errText : List String → String)
    (files : List (List String)) : String :=
  String.join (files.map (fileEntry tfs errText))

/-- The prompt registry `PROMPTS` of dump_codebase.py.  The six keys are
exact; each multi-kilobyte template literal is abbreviated to its opening
line (no claim depends on the bodies, only on the key set and on the
templates being non-empty text). -/
def PROMPTS : List (String × String) :=
  [("rooreview", "# 🧠 You are RooReview, an elite AI code reviewer. Your only job is to analyze this codebase and produce a report."),
   ("neutral", "You are a helpful AI assistant. The user has provided their codebase."),
   ("rooreview_auditor", "# 🧠 You are the RooReview Auditor."),
   ("codebase_auditor", "# Codebase Refactoring & Structural Deep Dive"),
   ("documentation_auditor", "**Role:** You are an expert code reviewer and documentation specialist."),
   ("feature_architect", "You are a senior software architect and my expert-level engineering partner.")]

/-- Embeds `PROMPTS.get(prompt_key)`. -/
def promptsGet (key : String) : Option String :=
  (PROMPTS.find? (fun kv => kv.1 == key)).map Prod.snd

/-- The keys of the registry, i.e. `PROMPTS.keys()`. -/
def promptKeys : List String := PROMPTS.map Prod.fst

/-- Embeds `write_codebase_to_file` as a function to the written text:
optional template, tree section, then the per-file sections.  `none` models
the crash of `build_tree` on a conflicting path list (the caller only passes
lists produced by `get_project_files`). -/
def write_codebase_to_file (tfs : TextFS) (errText : List String → String)
    (files : List (List String)) (prompt_key : String) : Option String :=
  (build_tree files).map (fun tree =>
    let treeStr := String.intercalate "\n" (render_tree tree "")
    (match promptsGet prompt_key with
     | some t => t
     | none => "")
      ++ "\n## 📁 File Structure\n\n" ++ treeStr ++ "\n\n"
      ++ "## 📄 File Contents\n\n" ++ fileSections tfs errText files)

/-- Embeds the argparse configuration of dump_codebase.py's `main` on the
invocations relevant here: a single optional `--prompt` flag whose value
must be one of `choices=PROMPTS.keys()` with `default='rooreview'`; any
other argument — including the diff script's `--no-prompt` — is rejected by
argparse (modelled `none`, for the process exiting with a usage error). -/
def codebaseParseArgs (argv : List String) : Option String :=
  match argv with
  | [] => some "rooreview"
  | ["--prompt", v] => if promptKeys.contains v then some v else none
  | _ => none

/-! The diff variant (dump_diff.py). -/

/-- The single prompt header of dump_diff.py. -/
def diff_prompt_header : String :=
  "Here are the changes implemented based on your last review. Please analyze this diff and let me know if the suggestions were correctly implemented or if any new issues were introduced. "

/-- Repository-facing state the diff script can mutate: the set of paths
currently staged with `git add -N` (intent-to-add). -/
structure GitState where
  intentStaged : List String

/-- Environment of one `get_full_diff` run: what the git commands report and
whether each fallible command succeeds.  `addPartial` is what a FAILING
`git add -N` nevertheless managed to stage (any list; only its intersection
with the requested files is ever used). -/
structure DiffEnv where
  gitFound : Bool
  hasHead : Bool
  existing : List String
  untracked : List String
  addOk : Bool
  addPartial : List String
  diffOk : Bool
  changedTracked : List String

/-- Effect of `git reset -- <files>` on the staged set. -/
def gitReset (staged files : List String) : List String :=
  staged.filter (fun f => !(files.contains f))

/-- Embeds `get_full_diff`.  The returned first component is `none` for
every `("", None)` error return and `some (diffFiles, outputName)` on
success, where `diffFiles` abstracts the captured diff by the list of files
it mentions: per the git documentation, `git diff HEAD -- . :(exclude)X`
reports every changed or intent-staged path except those matching the
exclusion pathspec `X`.  The second component is the repository state after
the `try/finally` block. -/
def get_full_diff (env : DiffEnv) (st : GitState) :
    Option (List String × String) × GitState :=
  if !env.gitFound then
    (none, st)
  else if !env.hasHead then
    (none, st)
  else
    let output_file :=
      get_unique_filename env.existing "diff_dump" (env.existing.length + 1)
    let toAdd := env.untracked.filter (fun f => f != output_file)
    let stagedAfterAdd :=
      if toAdd.isEmpty then st.intentStaged
      else if env.addOk then st.intentStaged ++ toAdd
      else st.intentStaged ++ env.addPartial.filter (fun f => toAdd.contains f)
    if !env.addOk && !toAdd.isEmpty then
      (none, GitState.mk (gitReset stagedAfterAdd toAdd))
    else if env.diffOk then
      let diffFiles :=
        (env.changedTracked ++ stagedAfterAdd).filter
          (fun f => f != output_file)
      (some (diffFiles, output_file),
        GitState.mk (gitReset stagedAfterAdd toAdd))
    else
      (none, GitState.mk (gitReset stagedAfterAdd toAdd))

/-- Embeds dump_diff.py's `main` output formatting: the prompt header is
suppressed exactly when `"--no-prompt" in sys.argv`. -/
def dumpDiffOutput (argv : List String) (diffText : String) : String :=
  (if argv.contains "--no-prompt" then ""
   else diff_prompt_header ++ "\n---\n\n")
    ++ "```diff\n" ++ diffText ++ "\n```"

/-- What one insertion does to the dict slot of the path's head segment
(`rest` is the remainder of the path): overwrite with a file marker when the
path ends here, fail (`none`) on an existing file entry, otherwise recurse
into the existing or fresh subdirectory.  Used to characterize
`insertParts`. -/
def slotStep (cur : Option Node) (rest : List String) : Option Node :=
  match rest, cur with
  | [], _ => some Node.file
  | _ :: _, some Node.file => none
  | _ :: _, some (Node.dir sub) => (insertParts sub rest).map Node.dir
  | _ :: _, none => (insertParts ([] : Entries) rest).map Node.dir

/-- Relation between the optional results of two builds: both crash, or both
succeed with well-formed, extensionally equivalent trees. -/
def OptTreeRel (o o' : Option Entries) : Prop :=
  match o, o' with
  | none, none => True
  | some t, some t' =>
    entriesWF t = true ∧ entriesWF t' = true ∧ EntriesEquiv t t'
  | _, _ => False

/-! Claim C2: the binary-detection heuristic. -/

/-- Claim C2, counterexample: the code's `is_binary` checks only for a null
byte in the first 2048 bytes; the claimed 30%-non-printable threshold is not
implemented.  A 10-byte file of `0x01` bytes is 100% non-printable — the
claimed heuristic calls it binary — yet `is_binary` returns `False`. -/
theorem claim2_counterexample :
    is_binary (fun _ => some (List.replicate 10 1)) ["blob.bin"] = false
    ∧ specBinaryHeuristic (List.replicate 10 1) = true := by
  constructor <;> rfl

/-- Claim C2 as amended: `is_binary` examines at most the first 2048 bytes
and classifies the file as binary iff a null byte occurs among them; an
empty file is never classified as binary. -/
theorem claim2_amended_null_byte_heuristic (fs : RawFS) (p : List String)
    (bytes : List Nat) (h : fs p = some bytes) :
    (is_binary fs p = true ↔ ∃ b ∈ bytes.take 2048, b = 0)
    ∧ (bytes = [] → is_binary fs p = false)
    ∧ is_binary fs p = is_binary (fun _ => some (bytes.take 2048)) p := by
  refine ⟨?_, ?_, ?_⟩
  · simp only [is_binary, h]
    simp [List.contains_iff_exists_mem_beq, eq_comm]
  · intro hb
    subst hb
    simp [is_binary, h]
  · simp only [is_binary, h, List.take_take]
    norm_num

/-- Witness for `claim2_amended_null_byte_heuristic` at a concrete file. -/
theorem claim2_witness :
    ((is_binary (fun _ => some [104, 0, 105]) ["a.py"] = true
        ↔ ∃ b ∈ ([104, 0, 105] : List Nat).take 2048, b = 0)
      ∧ (([104, 0, 105] : List Nat) = []
          → is_binary (fun _ => some [104, 0, 105]) ["a.py"] = false)
      ∧ is_binary (fun _ => some [104, 0, 105]) ["a.py"]
          = is_binary (fun _ => some (([104, 0, 105] : List Nat).take 2048))
              ["a.py"]) :=
  claim2_amended_null_byte_heuristic (fun _ => some [104, 0, 105]) ["a.py"]
    [104, 0, 105] rfl

/-! Claim C5: unique output-file naming. -/

/-- Loop invariant of `get_unique_filename`: starting from candidate `k`
with the counter at `k + 1`, the loop returns the first free candidate. -/
theorem uniqueLoop_spec (existing : List String) (base : String) :
    ∀ (n k fuel : Nat), n < fuel →
      (∀ m, m < n → candidateName base (k + m) ∈ existing) →
      candidateName base (k + n) ∉ existing →
      uniqueLoop existing base fuel (candidateName base k) (k + 1)
        = candidateName base (k + n) := by
  intro n
  induction n with
  | zero =>
    intro k fuel hf hmem hfree
    cases fuel with
    | zero => omega
    | succ f =>
      rw [Nat.add_zero] at hfree
      simp only [uniqueLoop, if_neg hfree, Nat.add_zero]
  | succ n ih =>
    intro k fuel hf hmem hfree
    cases fuel with
    | zero => omega
    | succ f =>
      have h0 : candidateName base k ∈ existing := by
        have := hmem 0 (Nat.succ_pos n)
        simpa using this
      simp only [uniqueLoop, if_pos h0]
      have hstep : base ++ " (" ++ toString (k + 1) ++ ").txt"
          = candidateName base (k + 1) := rfl
      rw [hstep]
      have ih' := ih (k + 1) f (by omega)
        (fun m hm => by
          have hx := hmem (m + 1) (by omega)
          have he : k + (m + 1) = (k + 1) + m := by omega
          rwa [he] at hx)
        (by
          have he : k + (n + 1) = (k + 1) + n := by omega
          rwa [he] at hfree)
      rw [ih']
      congr 1
      omega

/-- Claim C5: the chosen output name is the first candidate in the sequence
`base.txt`, `base (1).txt`, `base (2).txt`, … that does not exist yet; in
particular it never names an existing file. -/
theorem claim5_unique_output_name (existing : List String) (base : String)
    (n fuel : Nat) (hf : n < fuel)
    (hmem : ∀ m, m < n → candidateName base m ∈ existing)
    (hfree : candidateName base n ∉ existing) :
    get_unique_filename existing base fuel = candidateName base n
    ∧ get_unique_filename existing base fuel ∉ existing := by
  have h := uniqueLoop_spec existing base n 0 fuel hf
    (fun m hm => by simpa using hmem m hm) (by simpa using hfree)
  have he : get_unique_filename existing base fuel = candidateName base n := by
    simpa using h
  exact ⟨he, by rw [he]; exact hfree⟩

/-- Witness for `claim5_unique_output_name`: with `project.txt` and
`project (1).txt` both present, the run picks `project (2).txt`. -/
theorem claim5_witness :
    get_unique_filename ["project.txt", "project (1).txt"] "project" 3
      = "project (2).txt" := by
  have h := claim5_unique_output_name ["project.txt", "project (1).txt"]
    "project" 2 3 (by omega) (by decide) (by decide)
  have : candidateName "project" 2 = "project (2).txt" := by decide
  rw [← this]
  exact h.1

/-! Claim C4: the stage/unstage bracket of the diff variant. -/

/-- Helper: `git reset` on the requested files restores a staged set of the
form `old ++ added` to `old`, provided `old` is disjoint from the request
and everything added is part of the request. -/
theorem gitReset_restore (a b toAdd : List String)
    (ha : ∀ f ∈ a, f ∉ toAdd) (hb : ∀ f ∈ b, f ∈ toAdd) :
    gitReset (a ++ b) toAdd = a := by
  unfold gitReset
  rw [List.filter_append]
  have h1 : a.filter (fun f => !(toAdd.contains f)) = a :=
    List.filter_eq_self.mpr (fun f hf => by
      simpa using ha f hf)
  have h2 : b.filter (fun f => !(toAdd.contains f)) = [] := by
    rw [List.filter_eq_nil_iff]
    intro f hf
    simpa using hb f hf
  rw [h1, h2, List.append_nil]

/-- Claim C4: whatever the add and diff commands do — succeed, fail, or
(for add) stage only part of the request — the `finally` reset leaves the
intent-staged set exactly as it was before the run, on every exit path. -/
theorem claim4_unstage_on_every_exit (env : DiffEnv) (st : GitState)
    (hdisj : ∀ f ∈ env.untracked, f ∉ st.intentStaged) :
    (get_full_diff env st).2 = st := by
  unfold get_full_diff
  cases hgf : env.gitFound with
  | false => simp
  | true =>
    cases hh : env.hasHead with
    | false => simp
    | true =>
      simp only [Bool.not_true, Bool.false_eq_true, if_false]
      set out := get_unique_filename env.existing "diff_dump"
        (env.existing.length + 1) with hout
      set toAdd := env.untracked.filter (fun f => f != out) with htoAdd
      have hdisj' : ∀ f ∈ st.intentStaged, f ∉ toAdd := by
        intro f hf hmem
        exact hdisj f (List.mem_of_mem_filter hmem) hf
      have hrestore : ∀ extra, (∀ f ∈ extra, f ∈ toAdd) →
          GitState.mk (gitReset (st.intentStaged ++ extra) toAdd) = st := by
        intro extra hextra
        rw [gitReset_restore st.intentStaged extra toAdd hdisj' hextra]
      cases hE : toAdd.isEmpty with
      | true =>
        have hnil : toAdd = [] := List.isEmpty_iff.mp hE
        simp only [hE, if_true, Bool.and_false, Bool.false_eq_true, if_false]
        have := hrestore [] (by simp)
        simp only [List.append_nil] at this
        cases env.diffOk <;> simp [this]
      | false =>
        simp only [hE, Bool.false_eq_true, if_false]
        cases hA : env.addOk with
        | false =>
          simp only [Bool.not_false, Bool.and_true]
          exact hrestore (env.addPartial.filter (fun f => toAdd.contains f))
            (fun f hf => by simpa using (List.of_mem_filter hf))
        | true =>
          simp only [Bool.not_true, Bool.false_and, Bool.false_eq_true,
            if_false]
          cases env.diffOk <;>
            simp [hrestore toAdd (fun f hf => hf)]

/-- Witness for `claim4_unstage_on_every_exit` at a run whose add command
fails after staging one of the two requested files. -/
theorem claim4_witness :
    (get_full_diff
      (DiffEnv.mk true true [] ["u.txt", "v.py"] false ["u.txt"] true
        ["m.py"])
      (GitState.mk ["old.rs"])).2 = GitState.mk ["old.rs"] :=
  claim4_unstage_on_every_exit _ _ (by decide)

/-! Claim C7: the output file is chosen before, and excluded from, the
diff. -/

/-- Claim C7: when the diff capture succeeds, the captured diff never
mentions the output file, and the output name is the fresh name that was
determined before the diff command ran (the exclusion pathspec is built from
exactly that name). -/
theorem claim7_output_excluded_from_diff (env : DiffEnv) (st : GitState)
    (files : List String) (out : String)
    (h : (get_full_diff env st).1 = some (files, out)) :
    out ∉ files
    ∧ out = get_unique_filename env.existing "diff_dump"
        (env.existing.length + 1) := by
  unfold get_full_diff at h
  cases hgf : env.gitFound with
  | false => rw [hgf] at h; simp at h
  | true =>
    cases hh : env.hasHead with
    | false => rw [hgf, hh] at h; simp at h
    | true =>
      rw [hgf, hh] at h
      simp only [Bool.not_true, Bool.false_eq_true, if_false] at h
      by_cases hfail :
          (!env.addOk
            && !(env.untracked.filter (fun f =>
                  f != get_unique_filename env.existing "diff_dump"
                    (env.existing.length + 1))).isEmpty) = true
      · rw [if_pos hfail] at h
        simp at h
      · rw [if_neg hfail] at h
        cases hD : env.diffOk with
        | false => rw [hD] at h; simp at h
        | true =>
          rw [hD] at h
          simp only [if_true] at h
          have hf : files = _ ∧ out = _ :=
            ⟨(Prod.mk.injEq _ _ _ _ ▸ (Option.some.inj h)).1.symm,
             (Prod.mk.injEq _ _ _ _ ▸ (Option.some.inj h)).2.symm⟩
          obtain ⟨hfiles, hout⟩ := hf


          subst hfiles
          subst hout
          refine ⟨?_, rfl⟩
          intro hmem
          have := List.of_mem_filter hmem
          simp at this
/-- Witness for `claim7_output_excluded_from_diff` on a concrete run: one
modified tracked file and one untracked file, diff succeeding. -/
theorem claim7_witness :
    ("diff_dump.txt" : String) ∉ ["m.py", "u.txt"]
    ∧ ("diff_dump.txt" : String)
        = get_unique_filename
            (DiffEnv.mk true true [] ["u.txt"] true [] true ["m.py"]).existing
            "diff_dump"
            ((DiffEnv.mk true true [] ["u.txt"] true [] true
              ["m.py"]).existing.length + 1) :=
  claim7_output_excluded_from_diff
    (DiffEnv.mk true true [] ["u.txt"] true [] true ["m.py"])
    (GitState.mk []) ["m.py", "u.txt"] "diff_dump.txt" rfl

/-! Claim C1: the composed filter. -/

/-- Boolean structure of `is_valid_file`. -/
theorem is_valid_file_eq (fs : RawFS) (p : List String) :
    is_valid_file fs p
      = ((include_extensions.any (fun ext => pyEndsWith (pathName p) ext)
          || include_patterns.any (fun pat => fnmatch (pathName p) pat))
        && !(is_binary fs p)) := by
  unfold is_valid_file
  cases h1 : (include_extensions.any (fun ext => pyEndsWith (pathName p) ext)
      || include_patterns.any (fun pat => fnmatch (pathName p) pat)) <;>
    cases h2 : is_binary fs p <;> simp [h1, h2]

unseal globMatch in
/-- Claim C1, counterexample: `node_modules` occurring as a nested path
segment.  The pipeline's exclusions are git pathspecs, which match only at
the repository root, so `src/node_modules/x.js` (a readable text file) is
accepted by the code while the spec's filter contract rejects it. -/
theorem claim1_counterexample :
    get_project_files (fun _ => some [104, 105])
        [["src", "node_modules", "x.js"]]
      = [["src", "node_modules", "x.js"]]
    ∧ specFilterAccepts (fun _ => some [104, 105])
        ["src", "node_modules", "x.js"] = false := by
  constructor
  · show List.mergeSort _ _ = _
    rw [show (List.filter (is_valid_file (fun _ => some [104, 105]))
        (List.filter keptByGit [["src", "node_modules", "x.js"]]))
        = [["src", "node_modules", "x.js"]] from by decide]
    exact List.mergeSort_singleton _
  · decide

/-- Claim C1 as amended: a path is accepted by the pipeline iff no exclusion
(directory name or literal filename) equals its FIRST segment — git's
wildcard-free pathspecs match at the root only — its filename ends with a
whitelisted extension or matches an include glob, and its content is not
detected as binary. -/
theorem claim1_amended_filter (fs : RawFS) (enum : List (List String))
    (p : List String) :
    p ∈ get_project_files fs enum
      ↔ p ∈ enum
        ∧ (∀ s ∈ gitExclusions, ¬ p.head? = some s)
        ∧ ((∃ ext ∈ include_extensions, pyEndsWith (pathName p) ext = true)
            ∨ ∃ pat ∈ include_patterns, fnmatch (pathName p) pat = true)
        ∧ is_binary fs p = false := by
  unfold get_project_files
  rw [List.mem_mergeSort, List.mem_filter, List.mem_filter]
  rw [is_valid_file_eq]
  unfold keptByGit pathspecMatches
  simp only [Bool.and_eq_true, Bool.not_eq_true', List.any_eq_false,
    Bool.or_eq_true, List.any_eq_true, Bool.not_eq_eq_eq_not, Bool.not_true,
    beq_eq_false_iff_ne, ne_eq, Bool.not_eq_true]
  constructor
  · rintro ⟨⟨hp, hexcl⟩, hinc, hbin⟩
    exact ⟨hp, hexcl, hinc, hbin⟩
  · rintro ⟨hp, hexcl, hinc, hbin⟩
    exact ⟨⟨hp, hexcl⟩, hinc, hbin⟩

/-! Claim C10: deterministic ordering of the assembled file list. -/

/-- Transitivity of the Python tuple comparison. -/
theorem pairLe_trans (a b c : Bool × String) (h1 : pairLe a b = true)
    (h2 : pairLe b c = true) : pairLe a c = true := by
  obtain ⟨x, s⟩ := a
  obtain ⟨y, t⟩ := b
  obtain ⟨z, u⟩ := c
  simp only [pairLe] at *
  cases x <;> cases y <;> cases z <;> simp_all <;>
    exact le_trans h1 h2

/-- Totality of the Python tuple comparison. -/
theorem pairLe_total (a b : Bool × String) :
    (pairLe a b || pairLe b a) = true := by
  obtain ⟨x, s⟩ := a
  obtain ⟨y, t⟩ := b
  simp only [pairLe]
  cases x <;> cases y <;> rcases le_total s t with h | h <;> simp [h]

/-- Antisymmetry of the Python tuple comparison. -/
theorem pairLe_antisymm (a b : Bool × String) (h1 : pairLe a b = true)
    (h2 : pairLe b a = true) : a = b := by
  obtain ⟨x, s⟩ := a
  obtain ⟨y, t⟩ := b
  simp only [pairLe] at *
  cases x <;> cases y <;> simp_all <;>
    exact String.toList_inj.mp (le_antisymm h1 h2)

/-- Unfolding of the Python tuple comparison into a proposition. -/
theorem pairLe_iff (x y : Bool) (s t : String) :
    pairLe (x, s) (y, t) = true
      ↔ ((x = false ∧ y = true) ∨ (x = y ∧ s ≤ t)) := by
  simp only [pairLe]
  cases x <;> cases y <;> simp

/-- Claim C10: the list handed to the assembler is a permutation of the
filtered enumeration, sorted with all root-level paths (one segment) before
all nested ones and lexicographically by full path string inside each of the
two groups. -/
theorem claim10_deterministic_file_order (fs : RawFS)
    (enum : List (List String)) :
    (get_project_files fs enum).Perm
        ((enum.filter keptByGit).filter (is_valid_file fs))
    ∧ (get_project_files fs enum).Sorted (fun p q =>
        (isNested p = false ∧ isNested q = true)
        ∨ (isNested p = isNested q ∧ pathStr p ≤ pathStr q)) := by
  constructor
  · exact List.mergeSort_perm _ _
  · have hs := @List.sorted_mergeSort _ fileOrderLe
      (fun a b c h1 h2 => pairLe_trans _ _ _ h1 h2)
      (fun a b => pairLe_total _ _)
      ((enum.filter keptByGit).filter (is_valid_file fs))
    exact hs.imp (fun h => (pairLe_iff _ _ _ _).mp h)

/-! Claim C6: the renderer's sibling order, connectors and bars. -/

/-- The code's comparator decides exactly the spec's sibling policy. -/
theorem childOrderLe_eq_spec (a b : String × Node) :
    childOrderLe a b = decide (specSiblingLe a b) := by
  by_cases hst : a.1 ≤ b.1 <;>
    cases h1 : isDir a.2 <;> cases h2 : isDir b.2 <;>
      simp [childOrderLe, pairLe, keyOf, specSiblingLe, h1, h2, hst]

/-- The code's sibling sort and the spec's sibling sort coincide. -/
theorem mergeSort_childOrderLe_eq (es : Entries) :
    es.mergeSort childOrderLe = sortSiblings es := by
  unfold sortSiblings
  congr 1
  funext a b
  exact childOrderLe_eq_spec a b

/-- The code's renderer loop equals the spec's renderer loop on every
sibling list. -/
theorem renderSorted_eq_goSpec : ∀ (l : List (String × Node)) (pre : String),
    renderSorted l pre = goSpec l pre := by
  intro l pre
  induction l, pre using goSpec.induct with
  | case1 pre =>
    simp [renderSorted, goSpec]
  | case2 name pre =>
    simp [renderSorted, goSpec, specConnector]
  | case3 name es pre ih =>
    simp only [specBar, if_true] at ih
    simp only [renderSorted, goSpec, specConnector, specBar,
      mergeSort_childOrderLe_eq, List.isEmpty_nil, if_true, List.append_nil,
      ih]
  | case4 name rest pre hne ih =>
    have hE : rest.isEmpty = false := by
      cases rest with
      | nil => exact (hne rfl).elim
      | cons x xs => rfl
    cases rest with
    | nil => exact (hne rfl).elim
    | cons x xs =>
      simp only [renderSorted, goSpec, specConnector, hE, if_false,
        Bool.false_eq_true, ih]
  | case5 name es rest pre hne ih1 ih2 =>
    have hE : rest.isEmpty = false := by
      cases rest with
      | nil => exact (hne rfl).elim
      | cons x xs => rfl
    cases rest with
    | nil => exact (hne rfl).elim
    | cons x xs =>
      simp only [specBar, Bool.false_eq_true, if_false] at ih1
      simp only [renderSorted, goSpec, specConnector, specBar, hE, if_false,
        Bool.false_eq_true, mergeSort_childOrderLe_eq, ih1, ih2]

/-- Claim C6: the renderer equals the spec-side renderer — siblings ordered
files-before-directories and lexicographically inside each group, the last
sibling introduced by `└── ` with a blank continuation, every other sibling
by `├── ` with a `│   ` continuation bar, one 4-column unit per level — and
the sibling list it walks is sorted by that policy. -/
theorem claim6_renderer_policy (es : Entries) (pre : String) :
    render_tree es pre = renderSpec es pre
    ∧ (es.mergeSort childOrderLe).Sorted specSiblingLe := by
  constructor
  · unfold render_tree renderSpec
    rw [mergeSort_childOrderLe_eq]
    exact renderSorted_eq_goSpec _ _
  · have hs := @List.sorted_mergeSort _ childOrderLe
      (fun a b c h1 h2 => pairLe_trans _ _ _ h1 h2)
      (fun a b => pairLe_total _ _) es
    refine hs.imp (fun h => ?_)
    have := childOrderLe_eq_spec _ _ ▸ h
    simpa using this

/-! Claim C8: per-file read errors never abort a run. -/

/-- Helper: `String.join` distributes over list append. -/
theorem stringJoin_append (as bs : List String) :
    String.join (as ++ bs) = String.join as ++ String.join bs := by
  apply String.ext
  simp [String.join_eq, String.data_append]

/-- Helper: `String.join` on a cons cell. -/
theorem stringJoin_cons (a : String) (l : List String) :
    String.join (a :: l) = a ++ String.join l := by
  apply String.ext
  simp [String.join_eq, String.data_append]

/-- Claim C8: an unreadable file is classified binary and rejected by the
filter, and a file whose text read fails contributes exactly the inline
placeholder to the assembled contents while the sections before and after
it are untouched. -/
theorem claim8_read_errors_recovered (fs : RawFS) (tfs : TextFS)
    (errText : List String → String) (p : List String)
    (l₁ l₂ : List (List String))
    (hraw : fs p = none) (htext : tfs p = none) :
    is_binary fs p = true
    ∧ is_valid_file fs p = false
    ∧ fileSections tfs errText (l₁ ++ p :: l₂)
        = fileSections tfs errText l₁
          ++ ("<Could not read file " ++ pathStr p ++ ": " ++ errText p
              ++ ">\n\n")
          ++ fileSections tfs errText l₂ := by
  have hbin : is_binary fs p = true := by simp [is_binary, hraw]
  refine ⟨hbin, ?_, ?_⟩
  · rw [is_valid_file_eq, hbin]
    simp
  · unfold fileSections
    rw [List.map_append, List.map_cons, stringJoin_append, stringJoin_cons]
    rw [show fileEntry tfs errText p
        = "<Could not read file " ++ pathStr p ++ ": " ++ errText p
          ++ ">\n\n" from by simp [fileEntry, htext]]
    simp [String.append_assoc]

/-- Witness for `claim8_read_errors_recovered` on a concrete run where the
middle file of three is unreadable. -/
theorem claim8_witness :
    is_binary (fun _ => none) ["x.py"] = true
    ∧ is_valid_file (fun _ => none) ["x.py"] = false
    ∧ fileSections (fun _ => none) (fun _ => "PermissionError")
        ([["a.md"]] ++ ["x.py"] :: [["b.rs"]])
        = fileSections (fun _ => none) (fun _ => "PermissionError")
            [["a.md"]]
          ++ ("<Could not read file " ++ pathStr ["x.py"] ++ ": "
              ++ (fun _ => "PermissionError") ["x.py"] ++ ">\n\n")
          ++ fileSections (fun _ => none) (fun _ => "PermissionError")
              [["b.rs"]] :=
  claim8_read_errors_recovered (fun _ => none) (fun _ => none)
    (fun _ => "PermissionError") ["x.py"] [["a.md"]] [["b.rs"]] rfl rfl

/-! Claim C9: the command-line flags. -/

/-- Claim C9, counterexample: no single entry point carries both flags.  The
entry point with the template-selection flag (dump_codebase.py) rejects the
suppression flag `--no-prompt` as an unknown argument, and every selectable
key maps to a template, so no selection suppresses the header; the
suppression flag exists only on the diff entry point, which has no selection
flag. -/
theorem claim9_counterexample :
    codebaseParseArgs ["--no-prompt"] = none
    ∧ codebaseParseArgs [] = some "rooreview"
    ∧ (promptKeys.all (fun k => (promptsGet k).isSome)) = true := by
  refine ⟨rfl, rfl, by decide⟩

/-- Claim C9 as amended: the codebase entry point accepts the
template-selection flag with allowed values exactly the registry keys and
default `rooreview`; separately, the DIFF entry point accepts the
suppression flag `--no-prompt`, and when it is given no template text
appears in that output. -/
theorem claim9_amended_cli_flags :
    (∀ v, codebaseParseArgs ["--prompt", v] = some v ↔ v ∈ promptKeys)
    ∧ codebaseParseArgs [] = some "rooreview"
    ∧ (∀ argv k, codebaseParseArgs argv = some k → k ∈ promptKeys)
    ∧ (∀ argv d, argv.contains "--no-prompt" = true →
        dumpDiffOutput argv d = "```diff\n" ++ d ++ "\n```")
    ∧ (∀ argv d, argv.contains "--no-prompt" = false →
        dumpDiffOutput argv d
          = diff_prompt_header ++ "\n---\n\n" ++ "```diff\n" ++ d
            ++ "\n```") := by
  refine ⟨?_, rfl, ?_, ?_, ?_⟩
  · intro v
    constructor
    · intro h
      simp only [codebaseParseArgs] at h
      by_cases hv : v ∈ promptKeys
      · exact hv
      · rw [if_neg (by simpa using hv)] at h
        exact absurd h (by simp)
    · intro hmem
      simp only [codebaseParseArgs]
      rw [if_pos (by simpa using hmem)]
  · intro argv k h
    unfold codebaseParseArgs at h
    split at h
    · injection h with h'
      subst h'
      decide
    · split at h
      · injection h with h'
        subst h'
        rename_i hv
        simpa using hv
      · exact absurd h (by simp)
    · exact absurd h (by simp)
  · intro argv d hc
    unfold dumpDiffOutput
    rw [hc]
    simp
  · intro argv d hc
    unfold dumpDiffOutput
    rw [hc]
    simp

/-- Witness for `claim9_amended_cli_flags` at concrete invocations. -/
theorem claim9_witness :
    codebaseParseArgs ["--prompt", "neutral"] = some "neutral"
    ∧ dumpDiffOutput ["--no-prompt"] "DIFF" = "```diff\n" ++ "DIFF" ++ "\n```" := by
  refine ⟨?_, ?_⟩
  · exact (claim9_amended_cli_flags.1 "neutral").mpr (by decide)
  · exact claim9_amended_cli_flags.2.2.2.1 ["--no-prompt"] "DIFF" (by decide)

/-! Claim C3: permutation invariance of `render(build_tree(paths))`.
First a stock of lemmas about dict lookups, well-formedness, and the
insertion loop. -/

theorem lookup_eq_some_mem {es : Entries} {k : String} {v : Node}
    (h : lookupEntry es k = some v) : (k, v) ∈ es := by
  induction es with
  | nil => simp [lookupEntry] at h
  | cons e rest ih =>
    obtain ⟨k', v'⟩ := e
    by_cases hk : k' = k
    · subst hk
      simp only [lookupEntry, beq_self_eq_true, if_true] at h
      cases h
      exact List.mem_cons_self _ _
    · simp only [lookupEntry, beq_iff_eq, if_neg hk] at h
      exact List.mem_cons_of_mem _ (ih h)

theorem lookup_eq_none_iff {es : Entries} {k : String} :
    lookupEntry es k = none ↔ k ∉ es.map Prod.fst := by
  induction es with
  | nil => simp [lookupEntry]
  | cons e rest ih =>
    obtain ⟨k', v'⟩ := e
    by_cases hk : k' = k
    · subst hk
      simp [lookupEntry]
    · simp [lookupEntry, hk, ih, Ne.symm hk]

theorem mem_lookup_of_nodup {es : Entries} {k : String} {v : Node}
    (hnd : (es.map Prod.fst).Nodup) (hmem : (k, v) ∈ es) :
    lookupEntry es k = some v := by
  induction es with
  | nil => simp at hmem
  | cons e rest ih =>
    obtain ⟨k', v'⟩ := e
    simp only [List.map_cons, List.nodup_cons] at hnd
    rcases List.mem_cons.mp hmem with heq | htail
    · cases heq
      simp [lookupEntry]
    · have hk : ¬ k' = k := by
        intro h
        subst h
        exact hnd.1 (List.mem_map.mpr ⟨(k', v), htail, rfl⟩)
      simp only [lookupEntry, beq_iff_eq, if_neg hk]
      exact ih hnd.2 htail

theorem lookup_append (es es₂ : Entries) (k : String) :
    lookupEntry (es ++ es₂) k
      = (match lookupEntry es k with
         | some v => some v
         | none => lookupEntry es₂ k) := by
  induction es with
  | nil => simp [lookupEntry]
  | cons e rest ih =>
    obtain ⟨k', v'⟩ := e
    by_cases hk : k' = k
    · subst hk
      simp [lookupEntry]
    · simp only [List.cons_append, List.append_eq, lookupEntry, beq_iff_eq,
        if_neg hk, ih]

theorem lookup_setLast (es : Entries) (k key : String) :
    lookupEntry (setLast es k) key
      = if key = k then some Node.file else lookupEntry es key := by
  induction es with
  | nil =>
    by_cases hk : key = k
    · subst hk
      simp [setLast, lookupEntry]
    · have hk2 : ¬ k = key := fun h => hk h.symm
      simp [setLast, lookupEntry, hk, hk2]
  | cons e rest ih =>
    obtain ⟨k', v'⟩ := e
    by_cases hk1 : k' = k
    · subst hk1
      by_cases hkey : key = k'
      · subst hkey
        simp [setLast, lookupEntry]
      · have h2 : ¬ k' = key := fun h => hkey h.symm
        simp [setLast, lookupEntry, hkey, h2]
    · by_cases hkey : k' = key
      · subst hkey
        simp [setLast, lookupEntry, hk1, fun h => hk1 h]
      · simp only [setLast, beq_iff_eq, if_neg hk1, lookupEntry,
          if_neg hkey, ih]

theorem lookup_update (es : Entries) (k key : String) (v : Node) :
    lookupEntry (updateEntry es k v) key
      = if key = k then some v else lookupEntry es key := by
  induction es with
  | nil =>
    by_cases hk : key = k
    · subst hk
      simp [updateEntry, lookupEntry]
    · have hk2 : ¬ k = key := fun h => hk h.symm
      simp [updateEntry, lookupEntry, hk, hk2]
  | cons e rest ih =>
    obtain ⟨k', v'⟩ := e
    by_cases hk1 : k' = k
    · subst hk1
      by_cases hkey : key = k'
      · subst hkey
        simp [updateEntry, lookupEntry]
      · have h2 : ¬ k' = key := fun h => hkey h.symm
        simp [updateEntry, lookupEntry, hkey, h2]
    · by_cases hkey : k' = key
      · subst hkey
        simp [updateEntry, lookupEntry, hk1, fun h => hk1 h]
      · simp only [updateEntry, beq_iff_eq, if_neg hk1, lookupEntry,
          if_neg hkey, ih]

theorem mem_setLast {es : Entries} {k : String} {kv : String × Node}
    (h : kv ∈ setLast es k) : kv = (k, Node.file) ∨ kv ∈ es := by
  induction es with
  | nil =>
    simp [setLast] at h
    exact Or.inl h
  | cons e rest ih =>
    obtain ⟨k', v'⟩ := e
    by_cases hk : k' = k
    · subst hk
      simp only [setLast, beq_self_eq_true, if_true] at h
      rcases List.mem_cons.mp h with h1 | h1
      · exact Or.inl h1
      · exact Or.inr (List.mem_cons_of_mem _ h1)
    · simp only [setLast, beq_iff_eq, if_neg hk] at h
      rcases List.mem_cons.mp h with h1 | h1
      · exact Or.inr (h1 ▸ List.mem_cons_self _ _)
      · rcases ih h1 with h2 | h2
        · exact Or.inl h2
        · exact Or.inr (List.mem_cons_of_mem _ h2)

theorem mem_update {es : Entries} {k : String} {v : Node}
    {kv : String × Node} (h : kv ∈ updateEntry es k v) :
    kv = (k, v) ∨ kv ∈ es := by
  induction es with
  | nil =>
    simp [updateEntry] at h
    exact Or.inl h
  | cons e rest ih =>
    obtain ⟨k', v'⟩ := e
    by_cases hk : k' = k
    · subst hk
      simp only [updateEntry, beq_self_eq_true, if_true] at h
      rcases List.mem_cons.mp h with h1 | h1
      · exact Or.inl h1
      · exact Or.inr (List.mem_cons_of_mem _ h1)
    · simp only [updateEntry, beq_iff_eq, if_neg hk] at h
      rcases List.mem_cons.mp h with h1 | h1
      · exact Or.inr (h1 ▸ List.mem_cons_self _ _)
      · rcases ih h1 with h2 | h2
        · exact Or.inl h2
        · exact Or.inr (List.mem_cons_of_mem _ h2)

theorem keys_setLast (es : Entries) (k : String) :
    (setLast es k).map Prod.fst
      = if k ∈ es.map Prod.fst then es.map Prod.fst
        else es.map Prod.fst ++ [k] := by
  induction es with
  | nil => simp [setLast]
  | cons e rest ih =>
    obtain ⟨k', v'⟩ := e
    by_cases hk : k' = k
    · subst hk
      simp [setLast]
    · have hne : ¬ k = k' := fun h => hk h.symm
      by_cases hmem : k ∈ rest.map Prod.fst <;>
        simp [setLast, hk, hne, hmem, ih]

theorem keys_update (es : Entries) (k : String) (v : Node) :
    (updateEntry es k v).map Prod.fst
      = if k ∈ es.map Prod.fst then es.map Prod.fst
        else es.map Prod.fst ++ [k] := by
  induction es with
  | nil => simp [updateEntry]
  | cons e rest ih =>
    obtain ⟨k', v'⟩ := e
    by_cases hk : k' = k
    · subst hk
      simp [updateEntry]
    · have hne : ¬ k = k' := fun h => hk h.symm
      by_cases hmem : k ∈ rest.map Prod.fst <;>
        simp [updateEntry, hk, hne, hmem, ih]

theorem childrenWF_iff {es : Entries} :
    childrenWF es = true ↔ ∀ kv ∈ es, nodeWF kv.2 = true := by
  induction es with
  | nil => simp [childrenWF]
  | cons e rest ih =>
    obtain ⟨k', v'⟩ := e
    simp [childrenWF, ih]

theorem entriesWF_iff {es : Entries} :
    entriesWF es = true
      ↔ (es.map Prod.fst).Nodup ∧ ∀ kv ∈ es, nodeWF kv.2 = true := by
  unfold entriesWF
  rw [show nodeWF (Node.dir es)
      = (decide ((es.map Prod.fst).Nodup) && childrenWF es) from rfl]
  simp [childrenWF_iff]

/-- Well-formedness is preserved by one insertion. -/
theorem insert_WF : ∀ (p : List String) (es t₂ : Entries),
    entriesWF es = true → insertParts es p = some t₂ →
    entriesWF t₂ = true := by
  intro p
  induction p with
  | nil =>
    intro es t₂ _ h
    simp [insertParts] at h
  | cons a rest ih =>
    intro es t₂ hwf h
    rcases entriesWF_iff.mp hwf with ⟨hnd, hch⟩
    cases rest with
    | nil =>
      simp only [insertParts, Option.some.injEq] at h
      subst h
      refine entriesWF_iff.mpr ⟨?_, ?_⟩
      · rw [keys_setLast]
        by_cases hmem : a ∈ es.map Prod.fst
        · simpa [hmem] using hnd
        · simp only [hmem, if_false]
          simp [List.nodup_append, hnd, hmem]
      · intro kv hkv
        rcases mem_setLast hkv with h1 | h1
        · subst h1
          rfl
        · exact hch kv h1
    | cons b rest2 =>
      cases hl : lookupEntry es a with
      | none =>
        have h2 : (insertParts ([] : Entries) (b :: rest2)).map
            (fun sub' => es ++ [(a, Node.dir sub')]) = some t₂ := by
          rw [← h]
          rw [show insertParts es (a :: b :: rest2)
              = (match lookupEntry es a with
                 | some Node.file => none
                 | some (Node.dir sub) =>
                   (insertParts sub (b :: rest2)).map
                     (fun sub' => updateEntry es a (Node.dir sub'))
                 | none =>
                   (insertParts ([] : Entries) (b :: rest2)).map
                     (fun sub' => es ++ [(a, Node.dir sub')])) from rfl, hl]
        cases hs : insertParts ([] : Entries) (b :: rest2) with
        | none => rw [hs] at h2; simp at h2
        | some sub' =>
          rw [hs] at h2
          simp only [Option.map_some', Option.some.injEq] at h2
          subst h2
          have hwfsub : entriesWF sub' = true := ih [] sub' rfl hs
          refine entriesWF_iff.mpr ⟨?_, ?_⟩
          · have hnotmem : a ∉ es.map Prod.fst := lookup_eq_none_iff.mp hl
            simp [List.nodup_append, hnd, hnotmem]
          · intro kv hkv
            rcases List.mem_append.mp hkv with h1 | h1
            · exact hch kv h1
            · simp only [List.mem_singleton] at h1
              subst h1
              exact hwfsub
      | some v =>
        cases v with
        | file =>
          have h2 : (none : Option Entries) = some t₂ := by
            rw [← h]
            rw [show insertParts es (a :: b :: rest2)
                = (match lookupEntry es a with
                   | some Node.file => none
                   | some (Node.dir sub) =>
                     (insertParts sub (b :: rest2)).map
                       (fun sub' => updateEntry es a (Node.dir sub'))
                   | none =>
                     (insertParts ([] : Entries) (b :: rest2)).map
                       (fun sub' => es ++ [(a, Node.dir sub')])) from rfl, hl]
          simp at h2
        | dir sub =>
          have h2 : (insertParts sub (b :: rest2)).map
              (fun sub' => updateEntry es a (Node.dir sub')) = some t₂ := by
            rw [← h]
            rw [show insertParts es (a :: b :: rest2)
                = (match lookupEntry es a with
                   | some Node.file => none
                   | some (Node.dir sub) =>
                     (insertParts sub (b :: rest2)).map
                       (fun sub' => updateEntry es a (Node.dir sub'))
                   | none =>
                     (insertParts ([] : Entries) (b :: rest2)).map
                       (fun sub' => es ++ [(a, Node.dir sub')])) from rfl, hl]
          cases hs : insertParts sub (b :: rest2) with
          | none => rw [hs] at h2; simp at h2
          | some sub' =>
            rw [hs] at h2
            simp only [Option.map_some', Option.some.injEq] at h2
            subst h2
            have hwfsub : entriesWF sub = true :=
              hch (a, Node.dir sub) (lookup_eq_some_mem hl)
            have hwfsub' : entriesWF sub' = true := ih sub sub' hwfsub hs
            refine entriesWF_iff.mpr ⟨?_, ?_⟩
            · rw [keys_update]
              have hmem : a ∈ es.map Prod.fst :=
                List.mem_map.mpr ⟨(a, Node.dir sub), lookup_eq_some_mem hl,
                  rfl⟩
              simpa [hmem] using hnd
            · intro kv hkv
              rcases mem_update hkv with h1 | h1
              · subst h1
                exact hwfsub'
              · exact hch kv h1

/-- Unfolding equation of `insertParts` on a path of length at least two. -/
theorem insertParts_cons₂ (es : Entries) (a b : String)
    (rest2 : List String) :
    insertParts es (a :: b :: rest2)
      = (match lookupEntry es a with
         | some Node.file => none
         | some (Node.dir sub) =>
           (insertParts sub (b :: rest2)).map
             (fun sub' => updateEntry es a (Node.dir sub'))
         | none =>
           (insertParts ([] : Entries) (b :: rest2)).map
             (fun sub' => es ++ [(a, Node.dir sub')])) := rfl

/-- Failure of one insertion is decided entirely by the slot of the head
segment. -/
theorem insert_fail_iff (es : Entries) (a : String) (rest : List String) :
    insertParts es (a :: rest) = none
      ↔ slotStep (lookupEntry es a) rest = none := by
  cases rest with
  | nil => simp [insertParts, slotStep]
  | cons b rest2 =>
    rw [insertParts_cons₂]
    cases hl : lookupEntry es a with
    | none => simp [slotStep]
    | some v =>
      cases v with
      | file => simp [slotStep]
      | dir sub => simp [slotStep]

/-- A successful insertion changes the head-segment slot to `slotStep` and
no other slot. -/
theorem insert_some_lookup {es t₂ : Entries} {a : String}
    {rest : List String} (h : insertParts es (a :: rest) = some t₂) :
    lookupEntry t₂ a = slotStep (lookupEntry es a) rest
    ∧ ∀ key, key ≠ a → lookupEntry t₂ key = lookupEntry es key := by
  cases rest with
  | nil =>
    simp only [insertParts, Option.some.injEq] at h
    subst h
    constructor
    · rw [lookup_setLast]
      simp [slotStep]
    · intro key hkey
      rw [lookup_setLast, if_neg hkey]
  | cons b rest2 =>
    rw [insertParts_cons₂] at h
    cases hl : lookupEntry es a with
    | none =>
      rw [hl] at h
      cases hs : insertParts ([] : Entries) (b :: rest2) with
      | none => rw [hs] at h; simp at h
      | some sub' =>
        rw [hs] at h
        simp only [Option.map_some', Option.some.injEq] at h
        subst h
        constructor
        · rw [lookup_append]
          rw [hl]
          simp [lookupEntry, slotStep, hs]
        · intro key hkey
          rw [lookup_append]
          cases hk : lookupEntry es key with
          | none => simp [lookupEntry, Ne.symm hkey]
          | some w => simp
    | some v =>
      cases v with
      | file =>
        have h2 : (none : Option Entries) = some t₂ := by rw [← h, hl]
        simp at h2
      | dir sub =>
        have h2 : (insertParts sub (b :: rest2)).map
            (fun sub' => updateEntry es a (Node.dir sub')) = some t₂ := by
          rw [← h, hl]
        cases hs : insertParts sub (b :: rest2) with
        | none => rw [hs] at h2; simp at h2
        | some sub' =>
          rw [hs] at h2
          simp only [Option.map_some', Option.some.injEq] at h2
          subst h2
          constructor
          · rw [lookup_update]
            simp [slotStep, hs]
          · intro key hkey
            rw [lookup_update, if_neg hkey]

/-! Equivalence machinery. -/

theorem nodeEquiv_refl_aux : ∀ (n : Nat) (v : Node), sizeOf v ≤ n →
    NodeEquiv v v := by
  intro n
  induction n with
  | zero =>
    intro v h
    cases v <;> simp [Node.file.sizeOf_spec, Node.dir.sizeOf_spec] at h
  | succ n ih =>
    intro v h
    cases v with
    | file => exact NodeEquiv.file
    | dir es =>
      refine NodeEquiv.dir (fun k => Iff.rfl) (fun k v₁ v₂ h₁ h₂ => ?_)
      rw [h₁] at h₂
      cases h₂
      apply ih
      have hmem := lookup_eq_some_mem h₁
      have h3 : sizeOf (k, v₁) < sizeOf es := List.sizeOf_lt_of_mem hmem
      simp only [Node.dir.sizeOf_spec] at h
      simp only [Prod.mk.sizeOf_spec] at h3
      omega

theorem nodeEquiv_refl (v : Node) : NodeEquiv v v :=
  nodeEquiv_refl_aux (sizeOf v) v le_rfl

theorem entriesEquiv_refl (es : Entries) : EntriesEquiv es es :=
  nodeEquiv_refl (Node.dir es)

/-- Equivalence from pointwise equal lookups. -/
theorem equiv_of_lookup_eq {es es' : Entries}
    (h : ∀ k, lookupEntry es k = lookupEntry es' k) :
    EntriesEquiv es es' := by
  refine NodeEquiv.dir (fun k => by rw [h k]) (fun k v₁ v₂ h₁ h₂ => ?_)
  rw [h k, h₂] at h₁
  cases h₁
  exact nodeEquiv_refl _

theorem nodeEquiv_symm_aux : ∀ (n : Nat) (v w : Node), sizeOf v ≤ n →
    NodeEquiv v w → NodeEquiv w v := by
  intro n
  induction n with
  | zero =>
    intro v w h
    cases v <;> simp [Node.file.sizeOf_spec, Node.dir.sizeOf_spec] at h
  | succ n ih =>
    intro v w hsz h
    cases h with
    | file => exact NodeEquiv.file
    | dir hdom hpt =>
      rename_i es es'
      refine NodeEquiv.dir (fun k => (hdom k).symm)
        (fun k v₁ v₂ h₁ h₂ => ?_)
      refine ih v₂ v₁ ?_ (hpt k v₂ v₁ h₂ h₁)
      have hmem := lookup_eq_some_mem h₂
      have h3 : sizeOf (k, v₂) < sizeOf es := List.sizeOf_lt_of_mem hmem
      simp only [Node.dir.sizeOf_spec] at hsz
      simp only [Prod.mk.sizeOf_spec] at h3
      omega

theorem nodeEquiv_symm {v w : Node} (h : NodeEquiv v w) : NodeEquiv w v :=
  nodeEquiv_symm_aux (sizeOf v) v w le_rfl h

theorem nodeEquiv_trans_aux : ∀ (n : Nat) (u v w : Node), sizeOf u ≤ n →
    NodeEquiv u v → NodeEquiv v w → NodeEquiv u w := by
  intro n
  induction n with
  | zero =>
    intro u v w h
    cases u <;> simp [Node.file.sizeOf_spec, Node.dir.sizeOf_spec] at h
  | succ n ih =>
    intro u v w hsz h1 h2
    cases h1 with
    | file =>
      cases h2
      exact NodeEquiv.file
    | dir hdom1 hpt1 =>
      rename_i es₁ es₂
      cases h2 with
      | dir hdom2 hpt2 =>
        rename_i es₃
        refine NodeEquiv.dir (fun k => (hdom1 k).trans (hdom2 k))
          (fun k v₁ v₃ h₁ h₃ => ?_)
        cases hmid : lookupEntry es₂ k with
        | none =>
          rw [(hdom1 k).mpr hmid] at h₁
          cases h₁
        | some v₂ =>
          refine ih v₁ v₂ v₃ ?_ (hpt1 k v₁ v₂ h₁ hmid)
            (hpt2 k v₂ v₃ hmid h₃)
          have hmem := lookup_eq_some_mem h₁
          have h3 : sizeOf (k, v₁) < sizeOf es₁ := List.sizeOf_lt_of_mem hmem
          simp only [Node.dir.sizeOf_spec] at hsz
          simp only [Prod.mk.sizeOf_spec] at h3
          omega

theorem nodeEquiv_trans {u v w : Node} (h1 : NodeEquiv u v)
    (h2 : NodeEquiv v w) : NodeEquiv u w :=
  nodeEquiv_trans_aux (sizeOf u) u v w le_rfl h1 h2

theorem equiv_isDir {v w : Node} (h : NodeEquiv v w) : isDir v = isDir w := by
  cases h <;> rfl

theorem optTreeRel_symm {o o' : Option Entries} (h : OptTreeRel o o') :
    OptTreeRel o' o := by
  cases o <;> cases o' <;> simp [OptTreeRel] at h ⊢
  exact ⟨h.2.1, h.1, nodeEquiv_symm h.2.2⟩

theorem optTreeRel_trans {o₁ o₂ o₃ : Option Entries}
    (h1 : OptTreeRel o₁ o₂) (h2 : OptTreeRel o₂ o₃) : OptTreeRel o₁ o₃ := by
  cases o₁ <;> cases o₂ <;> cases o₃ <;> simp [OptTreeRel] at h1 h2 ⊢
  exact ⟨h1.1, h2.2.1, nodeEquiv_trans h1.2.2 h2.2.2⟩

/-- Two directory levels that agree (up to equivalence) on one distinguished
key and are equivalent elsewhere are equivalent. -/
theorem entriesEquiv_update_like {t t' es es' : Entries} {a : String}
    {x x' : Node} (hx : NodeEquiv x x') (heq : EntriesEquiv es es')
    (l1 : ∀ k, lookupEntry t k = if k = a then some x else lookupEntry es k)
    (l2 : ∀ k, lookupEntry t' k
        = if k = a then some x' else lookupEntry es' k) :
    EntriesEquiv t t' := by
  cases heq with
  | dir hdom hpt =>
    refine NodeEquiv.dir (fun k => ?_) (fun k v₁ v₂ h₁ h₂ => ?_)
    · rw [l1 k, l2 k]
      by_cases hk : k = a
      · simp [hk]
      · simp only [if_neg hk]
        exact hdom k
    · rw [l1 k] at h₁
      rw [l2 k] at h₂
      by_cases hk : k = a
      · rw [if_pos hk] at h₁ h₂
        cases h₁
        cases h₂
        exact hx
      · rw [if_neg hk] at h₁ h₂
        exact hpt k v₁ v₂ h₁ h₂

/-- Lookup in a level extended by a fresh key. -/
theorem lookup_append_fresh {es : Entries} {a : String} (x : Node)
    (hES : lookupEntry es a = none) (k : String) :
    lookupEntry (es ++ [(a, x)]) k
      = if k = a then some x else lookupEntry es k := by
  rw [lookup_append]
  by_cases hk : k = a
  · subst hk
    rw [hES]
    simp [lookupEntry]
  · cases hE2 : lookupEntry es k with
    | none =>
      have hak : ¬ a = k := fun h => hk h.symm
      simp [lookupEntry, hk, hak]
    | some w => simp [hk]

/-- One insertion sends equivalent well-formed trees to related results:
both crash, or both succeed with equivalent well-formed trees. -/
theorem insert_congr : ∀ (p : List String) (es es' : Entries),
    entriesWF es = true → entriesWF es' = true → EntriesEquiv es es' →
    OptTreeRel (insertParts es p) (insertParts es' p) := by
  intro p
  induction p with
  | nil =>
    intro es es' _ _ _
    simp [insertParts, OptTreeRel]
  | cons a rest ih =>
    intro es es' hwf hwf' heq
    obtain ⟨hdom, hpt⟩ : (∀ k, lookupEntry es k = none
          ↔ lookupEntry es' k = none)
        ∧ ∀ k v v', lookupEntry es k = some v →
            lookupEntry es' k = some v' → NodeEquiv v v' := by
      cases heq with
      | dir hdom hpt => exact ⟨hdom, hpt⟩
    cases rest with
    | nil =>
      show OptTreeRel (some (setLast es a)) (some (setLast es' a))
      refine ⟨insert_WF [a] es _ hwf rfl, insert_WF [a] es' _ hwf' rfl, ?_⟩
      exact entriesEquiv_update_like NodeEquiv.file
        (NodeEquiv.dir hdom hpt)
        (fun k => lookup_setLast es a k)
        (fun k => lookup_setLast es' a k)
    | cons b rest2 =>
      cases hl : lookupEntry es a with
      | none =>
        have hl' : lookupEntry es' a = none := (hdom a).mp hl
        cases hs : insertParts ([] : Entries) (b :: rest2) with
        | none =>
          have e1 : insertParts es (a :: b :: rest2) = none := by
            rw [insertParts_cons₂, hl, hs]
            rfl
          have e2 : insertParts es' (a :: b :: rest2) = none := by
            rw [insertParts_cons₂, hl', hs]
            rfl
          rw [e1, e2]
          trivial
        | some s =>
          have e1 : insertParts es (a :: b :: rest2)
              = some (es ++ [(a, Node.dir s)]) := by
            rw [insertParts_cons₂, hl, hs]
            rfl
          have e2 : insertParts es' (a :: b :: rest2)
              = some (es' ++ [(a, Node.dir s)]) := by
            rw [insertParts_cons₂, hl', hs]
            rfl
          rw [e1, e2]
          refine ⟨insert_WF _ es _ hwf e1, insert_WF _ es' _ hwf' e2, ?_⟩
          exact entriesEquiv_update_like (nodeEquiv_refl (Node.dir s))
            (NodeEquiv.dir hdom hpt)
            (fun k => lookup_append_fresh (Node.dir s) hl k)
            (fun k => lookup_append_fresh (Node.dir s) hl' k)
      | some v =>
        cases hl' : lookupEntry es' a with
        | none =>
          rw [(hdom a).mpr hl'] at hl
          cases hl
        | some v' =>
          have hvv : NodeEquiv v v' := hpt a v v' hl hl'
          cases hvv with
          | file =>
            have e1 : insertParts es (a :: b :: rest2) = none := by
              rw [insertParts_cons₂, hl]
            have e2 : insertParts es' (a :: b :: rest2) = none := by
              rw [insertParts_cons₂, hl']
            rw [e1, e2]
            trivial
          | dir hd hp =>
            rename_i sub sub'
            have hwfsub : entriesWF sub = true :=
              (entriesWF_iff.mp hwf).2 (a, Node.dir sub)
                (lookup_eq_some_mem hl)
            have hwfsub' : entriesWF sub' = true :=
              (entriesWF_iff.mp hwf').2 (a, Node.dir sub')
                (lookup_eq_some_mem hl')
            have hrel := ih sub sub' hwfsub hwfsub' (NodeEquiv.dir hd hp)
            cases hs : insertParts sub (b :: rest2) with
            | none =>
              cases hs' : insertParts sub' (b :: rest2) with
              | none =>
                have e0 : insertParts es (a :: b :: rest2)
                    = (insertParts sub (b :: rest2)).map
                        (fun s0 => updateEntry es a (Node.dir s0)) := by
                  rw [insertParts_cons₂, hl]
                have e0' : insertParts es' (a :: b :: rest2)
                    = (insertParts sub' (b :: rest2)).map
                        (fun s0 => updateEntry es' a (Node.dir s0)) := by
                  rw [insertParts_cons₂, hl']
                rw [e0, e0', hs, hs']
                trivial
              | some s' =>
                rw [hs, hs'] at hrel
                exact absurd hrel (by simp [OptTreeRel])
            | some s =>
              cases hs' : insertParts sub' (b :: rest2) with
              | none =>
                rw [hs, hs'] at hrel
                exact absurd hrel (by simp [OptTreeRel])
              | some s' =>
                rw [hs, hs'] at hrel
                obtain ⟨hwfs, hwfs', heqss⟩ := hrel
                have e1 : insertParts es (a :: b :: rest2)
                    = some (updateEntry es a (Node.dir s)) := by
                  rw [insertParts_cons₂, hl]
                  show (insertParts sub (b :: rest2)).map
                      (fun s0 => updateEntry es a (Node.dir s0)) = _
                  rw [hs]
                  rfl
                have e2 : insertParts es' (a :: b :: rest2)
                    = some (updateEntry es' a (Node.dir s')) := by
                  rw [insertParts_cons₂, hl']
                  show (insertParts sub' (b :: rest2)).map
                      (fun s0 => updateEntry es' a (Node.dir s0)) = _
                  rw [hs']
                  rfl
                rw [e1, e2]
                refine ⟨insert_WF _ es _ hwf e1,
                  insert_WF _ es' _ hwf' e2, ?_⟩
                exact entriesEquiv_update_like heqss
                  (NodeEquiv.dir hdom hpt)
                  (fun k => lookup_update es a k (Node.dir s))
                  (fun k => lookup_update es' a k (Node.dir s'))

theorem slotStep_file {rest : List String} (h : rest ≠ []) :
    slotStep (some Node.file) rest = none := by
  cases rest with
  | nil => exact absurd rfl h
  | cons c rs => rfl

theorem slotStep_dir (s : Entries) {rest : List String} (h : rest ≠ []) :
    slotStep (some (Node.dir s)) rest = (insertParts s rest).map Node.dir := by
  cases rest with
  | nil => exact absurd rfl h
  | cons c rs => rfl

theorem slotStep_fresh {rest : List String} (h : rest ≠ []) :
    slotStep none rest
      = (insertParts ([] : Entries) rest).map Node.dir := by
  cases rest with
  | nil => exact absurd rfl h
  | cons c rs => rfl

theorem bindInsert_WF {t : Entries} {x y : List String} {u : Entries}
    (hwf : entriesWF t = true)
    (h : (insertParts t x).bind (fun t₁ => insertParts t₁ y) = some u) :
    entriesWF u = true := by
  cases hx : insertParts t x with
  | none => rw [hx] at h; simp at h
  | some t₁ =>
    rw [hx] at h
    have h2 : insertParts t₁ y = some u := h
    exact insert_WF _ _ _ (insert_WF _ _ _ hwf hx) h2

theorem optTreeRel_of_self {o : Option Entries}
    (h : ∀ u, o = some u → entriesWF u = true) : OptTreeRel o o := by
  cases o with
  | none => trivial
  | some u => exact ⟨h u rfl, h u rfl, entriesEquiv_refl u⟩

/-- Core of the commutation argument for two paths that share their head
segment `a`: assuming the slot at `a` behaves like inserting into the level
`sub` (which covers both an existing subdirectory and a fresh one), and the
commutation relation already holds one level down, the two insertion orders
are related. -/
theorem insert_comm_core {t : Entries} {a : String} {xs ys : List String}
    {sub : Entries} (hwf : entriesWF t = true)
    (hslot : ∀ rest : List String, rest ≠ [] →
      slotStep (lookupEntry t a) rest = (insertParts sub rest).map Node.dir)
    (hxs : xs ≠ []) (hys : ys ≠ [])
    (hrel : OptTreeRel
        ((insertParts sub xs).bind (fun s => insertParts s ys))
        ((insertParts sub ys).bind (fun s => insertParts s xs))) :
    OptTreeRel
      ((insertParts t (a :: xs)).bind (fun t₁ => insertParts t₁ (a :: ys)))
      ((insertParts t (a :: ys)).bind (fun t₁ => insertParts t₁ (a :: xs)))
    := by
  cases hsx : insertParts sub xs with
  | none =>
    have hfx : insertParts t (a :: xs) = none := by
      rw [insert_fail_iff, hslot xs hxs, hsx]
      rfl
    rw [hfx]
    cases hsy : insertParts sub ys with
    | none =>
      have hfy : insertParts t (a :: ys) = none := by
        rw [insert_fail_iff, hslot ys hys, hsy]
        rfl
      rw [hfy]
      trivial
    | some sy =>
      have hrel2 : OptTreeRel (none : Option Entries) (insertParts sy xs) := by
        rw [hsx, hsy] at hrel
        exact hrel
      have hsyx : insertParts sy xs = none := by
        cases hix : insertParts sy xs with
        | none => rfl
        | some w =>
          rw [hix] at hrel2
          exact absurd hrel2 (by simp [OptTreeRel])
      cases hty : insertParts t (a :: ys) with
      | none => trivial
      | some u₁ =>
        have hlu : lookupEntry u₁ a = some (Node.dir sy) := by
          have h1 := (insert_some_lookup hty).1
          rw [hslot ys hys, hsy] at h1
          simpa using h1
        have hfail : insertParts u₁ (a :: xs) = none := by
          rw [insert_fail_iff, hlu, slotStep_dir sy hxs, hsyx]
          rfl
        show OptTreeRel none (insertParts u₁ (a :: xs))
        rw [hfail]
        trivial
  | some s₁ =>
    cases htx : insertParts t (a :: xs) with
    | none =>
      exfalso
      have h1 := (insert_fail_iff t a xs).mp htx
      rw [hslot xs hxs, hsx] at h1
      simp at h1
    | some t₁ =>
      have hlt₁ : lookupEntry t₁ a = some (Node.dir s₁) := by
        have h1 := (insert_some_lookup htx).1
        rw [hslot xs hxs, hsx] at h1
        simpa using h1
      have hwft₁ : entriesWF t₁ = true := insert_WF _ _ _ hwf htx
      cases hs₁y : insertParts s₁ ys with
      | none =>
        have hfail : insertParts t₁ (a :: ys) = none := by
          rw [insert_fail_iff, hlt₁, slotStep_dir s₁ hys, hs₁y]
          rfl
        show OptTreeRel (insertParts t₁ (a :: ys)) _
        rw [hfail]
        have hrel2 : OptTreeRel (none : Option Entries)
            ((insertParts sub ys).bind (fun s => insertParts s xs)) := by
          rw [hsx] at hrel
          have h3 : (some s₁).bind (fun s => insertParts s ys)
              = insertParts s₁ ys := rfl
          rw [h3, hs₁y] at hrel
          exact hrel
        cases hsy : insertParts sub ys with
        | none =>
          have hfy : insertParts t (a :: ys) = none := by
            rw [insert_fail_iff, hslot ys hys, hsy]
            rfl
          rw [hfy]
          trivial
        | some sy =>
          rw [hsy] at hrel2
          have hrel3 : OptTreeRel (none : Option Entries)
              (insertParts sy xs) := hrel2
          have hsyx : insertParts sy xs = none := by
            cases hix : insertParts sy xs with
            | none => rfl
            | some w =>
              rw [hix] at hrel3
              exact absurd hrel3 (by simp [OptTreeRel])
          cases hty : insertParts t (a :: ys) with
          | none => trivial
          | some u₁ =>
            have hlu : lookupEntry u₁ a = some (Node.dir sy) := by
              have h1 := (insert_some_lookup hty).1
              rw [hslot ys hys, hsy] at h1
              simpa using h1
            have hfail2 : insertParts u₁ (a :: xs) = none := by
              rw [insert_fail_iff, hlu, slotStep_dir sy hxs, hsyx]
              rfl
            show OptTreeRel none (insertParts u₁ (a :: xs))
            rw [hfail2]
            trivial
      | some s₂ =>
        have hrel2 : OptTreeRel (some s₂)
            ((insertParts sub ys).bind (fun s => insertParts s xs)) := by
          rw [hsx] at hrel
          have h3 : (some s₁).bind (fun s => insertParts s ys)
              = insertParts s₁ ys := rfl
          rw [h3, hs₁y] at hrel
          exact hrel
        cases hsy : insertParts sub ys with
        | none =>
          rw [hsy] at hrel2
          exact absurd hrel2 (by simp [OptTreeRel])
        | some sy =>
          rw [hsy] at hrel2
          have hrel3 : OptTreeRel (some s₂) (insertParts sy xs) := hrel2
          cases hsyx : insertParts sy xs with
          | none =>
            rw [hsyx] at hrel3
            exact absurd hrel3 (by simp [OptTreeRel])
          | some s₂' =>
            rw [hsyx] at hrel3
            obtain ⟨hwfs₂, hwfs₂', heq₂⟩ := hrel3
            cases hty : insertParts t (a :: ys) with
            | none =>
              exfalso
              have h1 := (insert_fail_iff t a ys).mp hty
              rw [hslot ys hys, hsy] at h1
              simp at h1
            | some u₁ =>
              have hwfu₁ : entriesWF u₁ = true := insert_WF _ _ _ hwf hty
              have hlu₁ : lookupEntry u₁ a = some (Node.dir sy) := by
                have h1 := (insert_some_lookup hty).1
                rw [hslot ys hys, hsy] at h1
                simpa using h1
              cases hty2 : insertParts t₁ (a :: ys) with
              | none =>
                exfalso
                have h1 := (insert_fail_iff t₁ a ys).mp hty2
                rw [hlt₁, slotStep_dir s₁ hys, hs₁y] at h1
                simp at h1
              | some t₂ =>
                cases hux : insertParts u₁ (a :: xs) with
                | none =>
                  exfalso
                  have h1 := (insert_fail_iff u₁ a xs).mp hux
                  rw [hlu₁, slotStep_dir sy hxs, hsyx] at h1
                  simp at h1
                | some u₂ =>
                  show OptTreeRel (insertParts t₁ (a :: ys))
                    (insertParts u₁ (a :: xs))
                  rw [hty2, hux]
                  refine ⟨insert_WF _ _ _ hwft₁ hty2,
                    insert_WF _ _ _ hwfu₁ hux, ?_⟩
                  have l1 : ∀ k, lookupEntry t₂ k
                      = if k = a then some (Node.dir s₂)
                        else lookupEntry t k := by
                    intro k
                    by_cases hk : k = a
                    · subst hk
                      rw [if_pos rfl]
                      have h1 := (insert_some_lookup hty2).1
                      rw [hlt₁, slotStep_dir s₁ hys, hs₁y] at h1
                      simpa using h1
                    · rw [if_neg hk, (insert_some_lookup hty2).2 k hk,
                        (insert_some_lookup htx).2 k hk]
                  have l2 : ∀ k, lookupEntry u₂ k
                      = if k = a then some (Node.dir s₂')
                        else lookupEntry t k := by
                    intro k
                    by_cases hk : k = a
                    · subst hk
                      rw [if_pos rfl]
                      have h1 := (insert_some_lookup hux).1
                      rw [hlu₁, slotStep_dir sy hxs, hsyx] at h1
                      simpa using h1
                    · rw [if_neg hk, (insert_some_lookup hux).2 k hk,
                        (insert_some_lookup hty).2 k hk]
                  exact entriesEquiv_update_like heq₂
                    (entriesEquiv_refl t) l1 l2

/-- Insertions of two paths commute (up to tree equivalence) when the paths
are equal or neither is a prefix of the other — exactly the shape of a
git-enumerated file list. -/
theorem insert_comm : ∀ (x y : List String) (t : Entries),
    entriesWF t = true → (x = y ∨ (¬ x <+: y ∧ ¬ y <+: x)) →
    OptTreeRel ((insertParts t x).bind (fun t₁ => insertParts t₁ y))
      ((insertParts t y).bind (fun t₁ => insertParts t₁ x)) := by
  intro x
  induction x with
  | nil =>
    intro y t hwf hside
    rcases hside with h | ⟨h1, h2⟩
    · subst h
      trivial
    · exact absurd (List.nil_prefix) h1
  | cons a xs ih =>
    intro y t hwf hside
    rcases hside with heq | ⟨hxy, hyx⟩
    · subst heq
      apply optTreeRel_of_self
      intro u hu
      exact bindInsert_WF hwf hu
    · cases y with
      | nil => exact absurd (List.nil_prefix) hyx
      | cons b ys =>
        by_cases hab : a = b
        · subst hab
          have hxs : xs ≠ [] := by
            intro h
            subst h
            exact hxy (List.cons_prefix_cons.mpr ⟨rfl, List.nil_prefix⟩)
          have hys : ys ≠ [] := by
            intro h
            subst h
            exact hyx (List.cons_prefix_cons.mpr ⟨rfl, List.nil_prefix⟩)
          have hxs2 : ¬ xs <+: ys := fun h =>
            hxy (List.cons_prefix_cons.mpr ⟨rfl, h⟩)
          have hys2 : ¬ ys <+: xs := fun h =>
            hyx (List.cons_prefix_cons.mpr ⟨rfl, h⟩)
          cases hl : lookupEntry t a with
          | some v =>
            cases v with
            | file =>
              have hfx : insertParts t (a :: xs) = none := by
                rw [insert_fail_iff, hl]
                exact slotStep_file hxs
              have hfy : insertParts t (a :: ys) = none := by
                rw [insert_fail_iff, hl]
                exact slotStep_file hys
              rw [hfx, hfy]
              trivial
            | dir sub =>
              have hwfsub : entriesWF sub = true :=
                (entriesWF_iff.mp hwf).2 _ (lookup_eq_some_mem hl)
              exact insert_comm_core hwf
                (fun rest hr => by rw [hl]; exact slotStep_dir sub hr)
                hxs hys
                (ih ys sub hwfsub (Or.inr ⟨hxs2, hys2⟩))
          | none =>
            exact insert_comm_core hwf
              (fun rest hr => by rw [hl]; exact slotStep_fresh hr)
              hxs hys
              (ih ys ([] : Entries) rfl (Or.inr ⟨hxs2, hys2⟩))
        · cases htx : insertParts t (a :: xs) with
          | none =>
            cases hty : insertParts t (b :: ys) with
            | none => trivial
            | some u₁ =>
              have hlu : lookupEntry u₁ a = lookupEntry t a :=
                (insert_some_lookup hty).2 a hab
              have hfail : insertParts u₁ (a :: xs) = none := by
                rw [insert_fail_iff, hlu]
                exact (insert_fail_iff t a xs).mp htx
              show OptTreeRel none (insertParts u₁ (a :: xs))
              rw [hfail]
              trivial
          | some t₁ =>
            have hwft₁ : entriesWF t₁ = true := insert_WF _ _ _ hwf htx
            cases hty : insertParts t (b :: ys) with
            | none =>
              have hlt : lookupEntry t₁ b = lookupEntry t b :=
                (insert_some_lookup htx).2 b (fun h => hab h.symm)
              have hfail : insertParts t₁ (b :: ys) = none := by
                rw [insert_fail_iff, hlt]
                exact (insert_fail_iff t b ys).mp hty
              show OptTreeRel (insertParts t₁ (b :: ys)) none
              rw [hfail]
              trivial
            | some u₁ =>
              have hwfu₁ : entriesWF u₁ = true := insert_WF _ _ _ hwf hty
              show OptTreeRel (insertParts t₁ (b :: ys))
                (insertParts u₁ (a :: xs))
              cases hts : insertParts t₁ (b :: ys) with
              | none =>
                exfalso
                have h1 := (insert_fail_iff t₁ b ys).mp hts
                rw [(insert_some_lookup htx).2 b (fun h => hab h.symm)] at h1
                have h2 := (insert_fail_iff t b ys).mpr h1
                rw [h2] at hty
                cases hty
              | some t₂ =>
                cases hus : insertParts u₁ (a :: xs) with
                | none =>
                  exfalso
                  have h1 := (insert_fail_iff u₁ a xs).mp hus
                  rw [(insert_some_lookup hty).2 a hab] at h1
                  have h2 := (insert_fail_iff t a xs).mpr h1
                  rw [h2] at htx
                  cases htx
                | some u₂ =>
                  refine ⟨insert_WF _ _ _ hwft₁ hts,
                    insert_WF _ _ _ hwfu₁ hus, equiv_of_lookup_eq ?_⟩
                  intro k
                  by_cases hka : k = a
                  · subst hka
                    rw [(insert_some_lookup hts).2 k hab,
                      (insert_some_lookup htx).1,
                      (insert_some_lookup hus).1,
                      (insert_some_lookup hty).2 k hab]
                  · by_cases hkb : k = b
                    · subst hkb
                      rw [(insert_some_lookup hus).2 k
                          (fun h => hab h.symm),
                        (insert_some_lookup hty).1,
                        (insert_some_lookup hts).1,
                        (insert_some_lookup htx).2 k (fun h => hab h.symm)]
                    · rw [(insert_some_lookup hts).2 k hkb,
                        (insert_some_lookup htx).2 k hka,
                        (insert_some_lookup hus).2 k hka,
                        (insert_some_lookup hty).2 k hkb]

theorem bindInsert_congr (p : List String) {o o' : Option Entries}
    (h : OptTreeRel o o') :
    OptTreeRel (o.bind (fun t => insertParts t p))
      (o'.bind (fun t => insertParts t p)) := by
  cases o with
  | none =>
    cases o' with
    | none => trivial
    | some t' => exact absurd h (by simp [OptTreeRel])
  | some t =>
    cases o' with
    | none => exact absurd h (by simp [OptTreeRel])
    | some t' =>
      obtain ⟨hw, hw', he⟩ := h
      exact insert_congr p t t' hw hw' he

theorem foldBind_congr : ∀ (l : List (List String)) (o o' : Option Entries),
    OptTreeRel o o' →
    OptTreeRel (o.bind (fun t => List.foldlM insertParts t l))
      (o'.bind (fun t => List.foldlM insertParts t l)) := by
  intro l
  induction l with
  | nil =>
    intro o o' h
    cases o with
    | none =>
      cases o' with
      | none => trivial
      | some t' => exact absurd h (by simp [OptTreeRel])
    | some t =>
      cases o' with
      | none => exact absurd h (by simp [OptTreeRel])
      | some t' => exact h
  | cons p l ihl =>
    intro o o' h
    have e : ∀ (oo : Option Entries),
        oo.bind (fun t => List.foldlM insertParts t (p :: l))
          = (oo.bind (fun t => insertParts t p)).bind
              (fun t₁ => List.foldlM insertParts t₁ l) := by
      intro oo
      cases oo with
      | none => rfl
      | some t =>
        show insertParts t p >>= (fun t₁ => List.foldlM insertParts t₁ l)
          = (insertParts t p).bind (fun t₁ => List.foldlM insertParts t₁ l)
        cases insertParts t p with
        | none => rfl
        | some t₁ => rfl
    rw [e o, e o']
    exact ihl _ _ (bindInsert_congr p h)

/-- The build fold sends permuted prefix-free path lists on equivalent
well-formed starting trees to related results. -/
theorem foldInsert_perm {l l' : List (List String)} (hperm : l.Perm l') :
    (∀ p ∈ l, p ≠ []) → (∀ p ∈ l, ∀ q ∈ l, p <+: q → p = q) →
    ∀ t t', entriesWF t = true → entriesWF t' = true → EntriesEquiv t t' →
    OptTreeRel (List.foldlM insertParts t l)
      (List.foldlM insertParts t' l') := by
  induction hperm with
  | nil =>
    intro _ _ t t' hw hw' he
    exact ⟨hw, hw', he⟩
  | cons p h ih =>
    intro hne hpf t t' hw hw' he
    show OptTreeRel
      ((insertParts t p).bind (fun t₁ => List.foldlM insertParts t₁ _))
      ((insertParts t' p).bind (fun t₁ => List.foldlM insertParts t₁ _))
    have step := insert_congr p t t' hw hw' he
    cases hx : insertParts t p with
    | none =>
      cases hx' : insertParts t' p with
      | none => trivial
      | some s' =>
        rw [hx, hx'] at step
        exact absurd step (by simp [OptTreeRel])
    | some s =>
      cases hx' : insertParts t' p with
      | none =>
        rw [hx, hx'] at step
        exact absurd step (by simp [OptTreeRel])
      | some s' =>
        rw [hx, hx'] at step
        obtain ⟨hws, hws', hes⟩ := step
        exact ih (fun q hq => hne q (List.mem_cons_of_mem _ hq))
          (fun q hq r hr => hpf q (List.mem_cons_of_mem _ hq) r
            (List.mem_cons_of_mem _ hr))
          s s' hws hws' hes
  | swap x y l =>
    intro hne hpf t t' hw hw' he
    have hxmem : x ∈ y :: x :: l := by simp
    have hymem : y ∈ y :: x :: l := by simp
    have hcond : x = y ∨ (¬ x <+: y ∧ ¬ y <+: x) := by
      by_cases hxeq : x = y
      · exact Or.inl hxeq
      · refine Or.inr ⟨fun h => hxeq (hpf x hxmem y hymem h),
          fun h => hxeq (hpf y hymem x hxmem h).symm⟩
    have hcomm := insert_comm x y t hw hcond
    have hcomm' : OptTreeRel
        ((insertParts t y).bind (fun t₁ => insertParts t₁ x))
        ((insertParts t' x).bind (fun t₁ => insertParts t₁ y)) :=
      optTreeRel_trans (optTreeRel_symm hcomm)
        (bindInsert_congr y (insert_congr x t t' hw hw' he))
    have shape : ∀ (tt : Entries) (p q : List String),
        List.foldlM insertParts tt (p :: q :: l)
          = ((insertParts tt p).bind (fun t₁ => insertParts t₁ q)).bind
              (fun t₂ => List.foldlM insertParts t₂ l) := by
      intro tt p q
      show insertParts tt p
            >>= (fun t₁ => List.foldlM insertParts t₁ (q :: l))
          = ((insertParts tt p).bind (fun t₁ => insertParts t₁ q)).bind
              (fun t₂ => List.foldlM insertParts t₂ l)
      cases insertParts tt p with
      | none => rfl
      | some t1 =>
        show insertParts t1 q >>= (fun t₂ => List.foldlM insertParts t₂ l)
            = (insertParts t1 q).bind
                (fun t₂ => List.foldlM insertParts t₂ l)
        cases insertParts t1 q with
        | none => rfl
        | some t2 => rfl
    rw [shape t y x, shape t' x y]
    exact foldBind_congr l _ _ hcomm'
  | trans h12 h23 ih12 ih23 =>
    intro hne hpf t t' hw hw' he
    have hne2 : ∀ p ∈ _, p ≠ [] := fun p hp =>
      hne p (h12.mem_iff.mpr hp)
    have hpf2 : ∀ p ∈ _, ∀ q ∈ _, p <+: q → p = q := fun p hp q hq =>
      hpf p (h12.mem_iff.mpr hp) q (h12.mem_iff.mpr hq)
    exact optTreeRel_trans
      (ih12 hne hpf t t hw hw (entriesEquiv_refl t))
      (ih23 hne2 hpf2 t t' hw hw' he)

theorem nodup_keyOf {es : Entries} (h : (es.map Prod.fst).Nodup) :
    (es.map keyOf).Nodup := by
  have he : es.map Prod.fst = (es.map keyOf).map Prod.snd := by
    simp [keyOf, Function.comp_def]
  rw [he] at h
  exact h.of_map

theorem mem_keyOf_iff {es : Entries} (hnd : (es.map Prod.fst).Nodup)
    (b : Bool) (k : String) :
    (b, k) ∈ es.map keyOf
      ↔ ∃ v, lookupEntry es k = some v ∧ isDir v = b := by
  constructor
  · intro h
    obtain ⟨⟨k', v⟩, hmem, hk⟩ := List.mem_map.mp h
    have h1 : isDir v = b := congrArg Prod.fst hk
    have h2 : k' = k := congrArg Prod.snd hk
    subst h2
    exact ⟨v, mem_lookup_of_nodup hnd hmem, h1⟩
  · rintro ⟨v, hl, rfl⟩
    exact List.mem_map.mpr ⟨(k, v), lookup_eq_some_mem hl, rfl⟩

theorem keyOf_perm {es es' : Entries}
    (hnd : (es.map Prod.fst).Nodup) (hnd' : (es'.map Prod.fst).Nodup)
    (hdom : ∀ k, lookupEntry es k = none ↔ lookupEntry es' k = none)
    (hpt : ∀ k v v', lookupEntry es k = some v →
      lookupEntry es' k = some v' → NodeEquiv v v') :
    (es.map keyOf).Perm (es'.map keyOf) := by
  rw [List.perm_ext_iff_of_nodup (nodup_keyOf hnd) (nodup_keyOf hnd')]
  intro a
  obtain ⟨b, k⟩ := a
  rw [mem_keyOf_iff hnd, mem_keyOf_iff hnd']
  constructor
  · rintro ⟨v, hl, rfl⟩
    have hsome : ¬ lookupEntry es' k = none := by
      intro hn
      rw [(hdom k).mpr hn] at hl
      cases hl
    obtain ⟨v', hv'⟩ := Option.ne_none_iff_exists'.mp hsome
    exact ⟨v', hv', (equiv_isDir (hpt k v v' hl hv')).symm⟩
  · rintro ⟨v', hl', rfl⟩
    have hsome : ¬ lookupEntry es k = none := by
      intro hn
      rw [(hdom k).mp hn] at hl'
      cases hl'
    obtain ⟨v, hv⟩ := Option.ne_none_iff_exists'.mp hsome
    exact ⟨v, hv, equiv_isDir (hpt k v v' hv hl')⟩

theorem sortedKeys_eq {es es' : Entries}
    (hnd : (es.map Prod.fst).Nodup) (hnd' : (es'.map Prod.fst).Nodup)
    (hdom : ∀ k, lookupEntry es k = none ↔ lookupEntry es' k = none)
    (hpt : ∀ k v v', lookupEntry es k = some v →
      lookupEntry es' k = some v' → NodeEquiv v v') :
    (es.mergeSort childOrderLe).map keyOf
      = (es'.mergeSort childOrderLe).map keyOf := by
  haveI : IsAntisymm (Bool × String) (fun a b => pairLe a b = true) :=
    ⟨pairLe_antisymm⟩
  apply List.eq_of_perm_of_sorted (r := fun a b => pairLe a b = true)
  · exact ((List.mergeSort_perm es childOrderLe).map keyOf).trans
      ((keyOf_perm hnd hnd' hdom hpt).trans
        (((List.mergeSort_perm es' childOrderLe).map keyOf).symm))
  · rw [List.Sorted, List.pairwise_map]
    exact @List.sorted_mergeSort _ childOrderLe
      (fun a b c h1 h2 => pairLe_trans _ _ _ h1 h2)
      (fun a b => pairLe_total _ _) es
  · rw [List.Sorted, List.pairwise_map]
    exact @List.sorted_mergeSort _ childOrderLe
      (fun a b c h1 h2 => pairLe_trans _ _ _ h1 h2)
      (fun a b => pairLe_total _ _) es'

/-- The renderer is invariant under tree equivalence: equivalent
well-formed levels render to the same lines. -/
theorem render_eq_of_equiv : ∀ (n : Nat) (es es' : Entries),
    sizeOf es ≤ n → entriesWF es = true → entriesWF es' = true →
    EntriesEquiv es es' → ∀ pre, render_tree es pre = render_tree es' pre
    := by
  intro n
  induction n with
  | zero =>
    intro es es' h
    exact absurd h (by cases es <;> simp)
  | succ n ih =>
    intro es es' hsz hwf hwf' heq pre
    obtain ⟨hdom, hpt⟩ : (∀ k, lookupEntry es k = none
          ↔ lookupEntry es' k = none)
        ∧ ∀ k v v', lookupEntry es k = some v →
            lookupEntry es' k = some v' → NodeEquiv v v' := by
      cases heq with
      | dir hdom hpt => exact ⟨hdom, hpt⟩
    rcases entriesWF_iff.mp hwf with ⟨hnd, hch⟩
    rcases entriesWF_iff.mp hwf' with ⟨hnd', hch'⟩
    have hkeys := sortedKeys_eq hnd hnd' hdom hpt
    unfold render_tree
    have align : ∀ (l₁ l₂ : List (String × Node)),
        l₁.map keyOf = l₂.map keyOf →
        (∀ e ∈ l₁, e ∈ es) → (∀ e ∈ l₂, e ∈ es') →
        ∀ pr, renderSorted l₁ pr = renderSorted l₂ pr := by
      intro l₁
      induction l₁ with
      | nil =>
        intro l₂ hm _ _ pr
        have : l₂ = [] := by
          cases l₂ with
          | nil => rfl
          | cons e r => simp at hm
        subst this
        rfl
      | cons e₁ r₁ ihl =>
        intro l₂ hm hsub₁ hsub₂ pr
        cases l₂ with
        | nil => simp at hm
        | cons e₂ r₂ =>
          obtain ⟨k₁, v₁⟩ := e₁
          obtain ⟨k₂, v₂⟩ := e₂
          simp only [List.map_cons, List.cons.injEq] at hm
          obtain ⟨hkey, hrest⟩ := hm
          have hname : k₁ = k₂ := congrArg Prod.snd hkey
          have hdirEq : isDir v₁ = isDir v₂ := congrArg Prod.fst hkey
          subst hname
          have hv₁ : lookupEntry es k₁ = some v₁ :=
            mem_lookup_of_nodup hnd (hsub₁ _ (List.mem_cons_self _ _))
          have hv₂ : lookupEntry es' k₁ = some v₂ :=
            mem_lookup_of_nodup hnd' (hsub₂ _ (List.mem_cons_self _ _))
          have hvv : NodeEquiv v₁ v₂ := hpt k₁ v₁ v₂ hv₁ hv₂
          have hlen : r₁.isEmpty = r₂.isEmpty := by
            have hlen2 : r₁.length = r₂.length := by
              rw [← List.length_map r₁ keyOf, hrest, List.length_map]
            cases r₁ <;> cases r₂ <;> simp_all
          have hrest' : renderSorted r₁ pr = renderSorted r₂ pr :=
            ihl r₂ hrest
              (fun e he => hsub₁ _ (List.mem_cons_of_mem _ he))
              (fun e he => hsub₂ _ (List.mem_cons_of_mem _ he)) pr
          cases v₁ with
          | file =>
            have hv2f : v₂ = Node.file := by
              cases hvv
              rfl
            subst hv2f
            simp only [renderSorted]
            rw [hlen, hrest']
          | dir es₁ =>
            cases v₂ with
            | file => exact absurd hdirEq (by simp [isDir])
            | dir es₂ =>
              have hchEq : EntriesEquiv es₁ es₂ := by
                cases hvv with
                | dir hd hp => exact NodeEquiv.dir hd hp
              have hwf₁ : entriesWF es₁ = true :=
                hch _ (hsub₁ _ (List.mem_cons_self _ _))
              have hwf₂ : entriesWF es₂ = true :=
                hch' _ (hsub₂ _ (List.mem_cons_self _ _))
              have hszlt : sizeOf es₁ ≤ n := by
                have h1 : (k₁, Node.dir es₁) ∈ es :=
                  hsub₁ _ (List.mem_cons_self _ _)
                have h2 := List.sizeOf_lt_of_mem h1
                simp only [Prod.mk.sizeOf_spec, Node.dir.sizeOf_spec] at h2
                omega
              have hcr : ∀ pr', renderSorted (es₁.mergeSort childOrderLe) pr'
                  = renderSorted (es₂.mergeSort childOrderLe) pr' :=
                fun pr' => ih es₁ es₂ hszlt hwf₁ hwf₂ hchEq pr'
              simp only [renderSorted]
              rw [hlen, hrest', hcr]
    exact align _ _ hkeys
      (fun e he => List.mem_mergeSort.mp he)
      (fun e he => List.mem_mergeSort.mp he) pre

unseal List.merge List.mergeSort renderSorted in
/-- Claim C3, counterexample: over arbitrary path sets the composition is
NOT permutation-invariant.  With the set containing both `a` and `a/b`, the
order `[a, a/b]` crashes `build_tree` (inserting below the file entry `a`
raises), while the order `[a/b, a]` silently overwrites the directory and
renders `└── a` — the two permutations do not produce the same rendered
tree.  The two lists are permutations of one another. -/
theorem claim3_counterexample :
    ([["a"], ["a", "b"]] : List (List String)).Perm [["a", "b"], ["a"]]
    ∧ ¬ ((build_tree [["a"], ["a", "b"]]).map (fun t => render_tree t "")
        = (build_tree [["a", "b"], ["a"]]).map (fun t => render_tree t ""))
    := by
  constructor
  · exact List.Perm.swap _ _ _
  · decide

/-- Claim C3 as amended: for path lists in which no path is a (proper)
prefix of another and no path is empty — which is the shape of every
git-enumerated file list, since a path and a path below it cannot both name
files — `render(build_tree(paths))` is invariant under permutation of
`paths`. -/
theorem claim3_amended_render_perm_invariant
    (paths paths' : List (List String)) (hperm : paths.Perm paths')
    (hne : ∀ p ∈ paths, p ≠ [])
    (hpf : ∀ p ∈ paths, ∀ q ∈ paths, p <+: q → p = q) :
    (build_tree paths).map (fun t => render_tree t "")
      = (build_tree paths').map (fun t => render_tree t "") := by
  have hwfnil : entriesWF ([] : Entries) = true := by decide
  have h := foldInsert_perm hperm hne hpf ([] : Entries) ([] : Entries)
    hwfnil hwfnil (entriesEquiv_refl [])
  unfold build_tree
  cases h1 : List.foldlM insertParts ([] : Entries) paths with
  | none =>
    cases h2 : List.foldlM insertParts ([] : Entries) paths' with
    | none => rfl
    | some t' =>
      rw [h1, h2] at h
      exact absurd h (by simp [OptTreeRel])
  | some t =>
    cases h2 : List.foldlM insertParts ([] : Entries) paths' with
    | none =>
      rw [h1, h2] at h
      exact absurd h (by simp [OptTreeRel])
    | some t' =>
      rw [h1, h2] at h
      obtain ⟨hw, hw', he⟩ := h
      simp only [Option.map_some', Option.some.injEq]
      exact render_eq_of_equiv (sizeOf t) t t' le_rfl hw hw' he ""

/-- Witness for `claim3_amended_render_perm_invariant` on a two-element
prefix-free path list and a genuine transposition of it. -/
theorem claim3_witness :
    (build_tree [["a"], ["d", "x"]]).map (fun t => render_tree t "")
      = (build_tree [["d", "x"], ["a"]]).map (fun t => render_tree t "") :=
  claim3_amended_render_perm_invariant _ _ (List.Perm.swap _ _ _)
    (by decide) (by decide)

end DumpCodebase
